import Mathlib

/-!
Verification of the node-graph → C++ compiler pipeline
(`project/compiler/validator.py`, `project/compiler/cpp_emitter.py`,
`project/scripts/emit_and_compile.py`) against its specification.

The Python source is shallowly embedded: dictionaries become association
lists, Python string operations become operations on `String` / `List Char`,
`None`-able values become `Option`, and exceptions become `Except`.
Python's `dict` iteration order is insertion order; where the source relies
on it (first-occurrence de-duplication) we model it with `pdedup`, which
keeps the first occurrence of every element.
-/

/-- First-occurrence de-duplication: keeps the first copy of each element,
in order.  Models the `if x not in seen` / `if x not in list: append`
idiom used throughout the Python source. -/
def pdedupAux {α : Type} [DecidableEq α] (seen : List α) : List α → List α
  | [] => []
  | a :: l => if a ∈ seen then pdedupAux seen l else a :: pdedupAux (a :: seen) l

def pdedup {α : Type} [DecidableEq α] (l : List α) : List α :=
  pdedupAux [] l

theorem mem_pdedupAux {α : Type} [DecidableEq α] (l : List α) :
    ∀ (seen : List α) (x : α), x ∈ pdedupAux seen l ↔ x ∈ l ∧ x ∉ seen := by
  induction l with
  | nil => intro seen x; simp [pdedupAux]
  | cons a l ih =>
    intro seen x
    by_cases ha : a ∈ seen
    · simp only [pdedupAux, if_pos ha, ih, List.mem_cons]
      constructor
      · rintro ⟨hx, hs⟩; exact ⟨Or.inr hx, hs⟩
      · rintro ⟨hax | hx, hs⟩
        · exact absurd (hax ▸ ha) hs
        · exact ⟨hx, hs⟩
    · simp only [pdedupAux, if_neg ha, List.mem_cons, ih]
      constructor
      · rintro (rfl | ⟨hx, hs⟩)
        · exact ⟨Or.inl rfl, ha⟩
        · simp only [List.mem_cons, not_or] at hs
          exact ⟨Or.inr hx, hs.2⟩
      · rintro ⟨hax | hx, hs⟩
        · exact Or.inl hax
        · by_cases hxa : x = a
          · exact Or.inl hxa
          · exact Or.inr ⟨hx, by simp [hxa, hs]⟩

theorem mem_pdedup {α : Type} [DecidableEq α] (l : List α) (x : α) :
    x ∈ pdedup l ↔ x ∈ l := by
  simp [pdedup, mem_pdedupAux]

theorem pdedupAux_nodup {α : Type} [DecidableEq α] (l : List α) :
    ∀ seen : List α, (pdedupAux seen l).Nodup := by
  induction l with
  | nil => intro seen; simp [pdedupAux]
  | cons a l ih =>
    intro seen
    by_cases ha : a ∈ seen
    · simpa only [pdedupAux, if_pos ha] using ih seen
    · simp only [pdedupAux, if_neg ha]
      refine List.nodup_cons.mpr ⟨?_, ih (a :: seen)⟩
      intro hmem
      have := (mem_pdedupAux l (a :: seen) a).mp hmem
      simp at this

theorem pdedup_nodup {α : Type} [DecidableEq α] (l : List α) :
    (pdedup l).Nodup :=
  pdedupAux_nodup l []

theorem pdedupAux_eq_self {α : Type} [DecidableEq α] (l : List α) :
    ∀ seen : List α, l.Nodup → (∀ x ∈ l, x ∉ seen) → pdedupAux seen l = l := by
  induction l with
  | nil => intro seen _ _; rfl
  | cons a l ih =>
    intro seen hnd hdis
    have ha : a ∉ seen := hdis a (List.mem_cons_self a l)
    rcases List.nodup_cons.mp hnd with ⟨hal, hl⟩
    simp only [pdedupAux, if_neg ha]
    congr 1
    apply ih (a :: seen) hl
    intro x hx
    simp only [List.mem_cons, not_or]
    exact ⟨fun hxa => hal (hxa ▸ hx), hdis x (List.mem_cons_of_mem a hx)⟩

theorem pdedup_eq_self {α : Type} [DecidableEq α] (l : List α) (h : l.Nodup) :
    pdedup l = l :=
  pdedupAux_eq_self l [] h (by simp)

/-- Association-list lookup, modelling Python's `dict.get`. -/
def lookupA {κ β : Type} [DecidableEq κ] : List (κ × β) → κ → Option β
  | [], _ => none
  | (k, v) :: rest, key => if k = key then some v else lookupA rest key

/-! ## IR normalization (`emit_and_compile.py`, `normalize_ir`, lines 80-135)

Nodes carry `id`, `inputs`, `outputs`; edges carry `from`/`to` (here
`src`/`dst`, since `from` is a Lean keyword) plus the port labels, which
`normalize_ir` never reads but carries through unchanged. -/

structure NEdge where
  src : String
  dst : String
  fromPort : Option String := none
  toPort : Option String := none
deriving DecidableEq, Inhabited

structure NNode where
  id : String
  inputs : List String := []
  outputs : List String := []
deriving DecidableEq, Inhabited

structure NIR where
  nodes : List NNode
  edges : List NEdge
deriving DecidableEq, Inhabited

/-- `nid in node_ids` for `node_ids = {n['id'] for n in nodes}`. -/
def isKnownId (nodes : List NNode) (x : String) : Bool :=
  nodes.any (fun n => n.id == x)

/-- Branch with `edges` non-empty: the per-node `inputs` list rebuilt from
the edge list — sources of valid incoming edges, first occurrence kept
(`if frm not in inputs_map[to]: inputs_map[to].append(frm)`). -/
def inputsFromEdges (nodes : List NNode) (edges : List NEdge) (nid : String) : List String :=
  pdedup ((edges.filter
    (fun e => isKnownId nodes e.src && isKnownId nodes e.dst && e.dst == nid)).map (·.src))

/-- Branch with `edges` non-empty: per-node `outputs` rebuilt from the edge
list — destinations of valid outgoing edges, first occurrence kept. -/
def outputsFromEdges (nodes : List NNode) (edges : List NEdge) (nid : String) : List String :=
  pdedup ((edges.filter
    (fun e => isKnownId nodes e.src && isKnownId nodes e.dst && e.src == nid)).map (·.dst))

/-- Branch with `edges` empty: edges synthesized from each node's `inputs`
(skipping inputs that are not known node ids), then de-duplicated on the
`(from, to)` pair with the first occurrence kept. -/
def synthEdges (nodes : List NNode) : List NEdge :=
  let raw := nodes.flatMap (fun n =>
    (n.inputs.filter (fun inp => isKnownId nodes inp)).map
      (fun inp => { src := inp, dst := n.id : NEdge }))
  -- de-duplication key is the pair `(e['from'], e['to'])`; the synthesized
  -- edges carry no ports, so pair-keyed de-duplication coincides with
  -- `pdedup` on the edge records themselves
  pdedup raw

/-- `outputs` computed from the synthesized (already valid) edge list. -/
def outputsFromSynth (uniq : List NEdge) (nid : String) : List String :=
  pdedup ((uniq.filter (fun e => e.src == nid)).map (·.dst))

/-- The `if edges:` branch of `normalize_ir`: edges are canonical and are
left untouched; `inputs`/`outputs` are rebuilt from them. -/
def normalizeEdgesPresent (ir : NIR) : NIR :=
  { nodes := ir.nodes.map (fun n =>
      { n with inputs := inputsFromEdges ir.nodes ir.edges n.id,
               outputs := outputsFromEdges ir.nodes ir.edges n.id }),
    edges := ir.edges }

/-- The `else` branch of `normalize_ir`: edges synthesized from `inputs`;
`outputs` rebuilt from them; `inputs` NOT rewritten. -/
def normalizeEdgesAbsent (ir : NIR) : NIR :=
  { nodes := ir.nodes.map (fun n =>
      { n with outputs := outputsFromSynth (synthEdges ir.nodes) n.id }),
    edges := synthEdges ir.nodes }

/-- Embedding of `normalize_ir` (`emit_and_compile.py` lines 80-135).
`ir.get('edges', []) or []` maps an absent/`None` edge list to `[]`. -/
def normalize_ir (ir : NIR) : NIR :=
  if ir.edges ≠ [] then normalizeEdgesPresent ir else normalizeEdgesAbsent ir

theorem isKnownId_map_same_id (nodes : List NNode) (f : NNode → NNode)
    (hf : ∀ n, (f n).id = n.id) : isKnownId (nodes.map f) = isKnownId nodes := by
  funext x
  simp only [isKnownId, List.any_map, Function.comp_def, hf]

/-- `normalize_ir` is idempotent on IRs whose edge list is non-empty: the
second application takes the same branch, sees the same edges and the same
node ids, and recomputes identical `inputs`/`outputs`. -/
theorem normalize_ir_idem_of_edges (ir : NIR) (h : ir.edges ≠ []) :
    normalize_ir (normalize_ir ir) = normalize_ir ir := by
  have h1 : normalize_ir ir = normalizeEdgesPresent ir := if_pos h
  have hfun : isKnownId (normalizeEdgesPresent ir).nodes = isKnownId ir.nodes :=
    isKnownId_map_same_id ir.nodes _ (fun _ => rfl)
  have h2 : (normalizeEdgesPresent ir).edges = ir.edges := rfl
  rw [h1, normalize_ir]
  rw [if_pos (show (normalizeEdgesPresent ir).edges ≠ [] from h)]
  show ({ nodes := (normalizeEdgesPresent ir).nodes.map _, edges := _ } : NIR)
      = normalizeEdgesPresent ir
  simp only [normalizeEdgesPresent, List.map_map]
  refine congrArg (fun ns => NIR.mk ns ir.edges) ?_
  apply List.map_congr_left
  intro n _
  simp only [Function.comp_def]
  have hi : inputsFromEdges (normalizeEdgesPresent ir).nodes ir.edges n.id
      = inputsFromEdges ir.nodes ir.edges n.id := by
    unfold inputsFromEdges
    rw [hfun]
  have ho : outputsFromEdges (normalizeEdgesPresent ir).nodes ir.edges n.id
      = outputsFromEdges ir.nodes ir.edges n.id := by
    unfold outputsFromEdges
    rw [hfun]
  rw [show (normalizeEdgesPresent ir).nodes = ir.nodes.map (fun n =>
      { n with inputs := inputsFromEdges ir.nodes ir.edges n.id,
               outputs := outputsFromEdges ir.nodes ir.edges n.id }) from rfl] at hi ho
  simp only [hi, ho]

theorem isKnownId_of_mem (nodes : List NNode) (n : NNode) (h : n ∈ nodes) :
    isKnownId nodes n.id = true := by
  simp only [isKnownId, List.any_eq_true]
  exact ⟨n, h, by simp⟩

/-- Claim C5 (corrected, amended): only in the edges-absent input form does
`normalize_ir` drop edges with unknown endpoints (the synthesized edge list
references known node ids only); in the edges-present form the edge list is
returned unchanged, so edges with unknown endpoints survive (they are merely
skipped when deriving `inputs`/`outputs`). -/
theorem normalize_ir_edge_validity (ir : NIR) :
    (ir.edges = [] → ∀ e ∈ (normalize_ir ir).edges,
        isKnownId ir.nodes e.src = true ∧ isKnownId ir.nodes e.dst = true)
    ∧ (ir.edges ≠ [] → (normalize_ir ir).edges = ir.edges) := by
  constructor
  · intro h e he
    have hn : normalize_ir ir = normalizeEdgesAbsent ir := by
      rw [normalize_ir, if_neg (by simp [h])]
    rw [hn] at he
    have he2 : e ∈ synthEdges ir.nodes := he
    rw [synthEdges, mem_pdedup] at he2
    rcases List.mem_flatMap.mp he2 with ⟨n, hn2, hmap⟩
    rcases List.mem_map.mp hmap with ⟨inp, hinp, rfl⟩
    rcases List.mem_filter.mp hinp with ⟨_, hknown⟩
    exact ⟨by simpa using hknown, isKnownId_of_mem ir.nodes n hn2⟩
  · intro h
    rw [normalize_ir, if_pos h]
    rfl

/-- Edges-absent IR whose normalization leaves valid edges only. -/
def c5WitnessIR : NIR :=
  { nodes := [{ id := "A" }, { id := "B", inputs := ["A", "C"] }], edges := [] }

theorem normalize_ir_edge_validity_witness :
    c5WitnessIR.edges = []
    ∧ (normalize_ir c5WitnessIR).edges = [{ src := "A", dst := "B" }]
    ∧ (isKnownId c5WitnessIR.nodes "A" = true ∧ isKnownId c5WitnessIR.nodes "B" = true) :=
  ⟨rfl, by decide,
    (normalize_ir_edge_validity c5WitnessIR).1 rfl { src := "A", dst := "B" } (by decide)⟩

/-- Edges-present IR with an edge to the unknown node "B". -/
def c5CexIR : NIR :=
  { nodes := [{ id := "A" }], edges := [{ src := "A", dst := "B" }] }

/-- Claim C5 as stated is false: with edges present, `normalize_ir` keeps the
edge whose destination "B" is not a node of the IR. -/
theorem normalize_ir_keeps_invalid_edge :
    (normalize_ir c5CexIR).edges = [{ src := "A", dst := "B" }]
    ∧ isKnownId (normalize_ir c5CexIR).nodes "B" = false := by
  decide

/-- Claim C4 (corrected, amended): `normalize_ir` is idempotent on IRs
presented with a non-empty edge list.  (In the edges-absent form the first
pass synthesizes edges but leaves each node's `inputs` untouched, so a
second pass — now taking the edges-present branch — can rewrite `inputs`,
e.g. de-duplicating them; see the counterexample.) -/
theorem normalize_ir_idempotent_of_edges_present (ir : NIR) (h : ir.edges ≠ []) :
    normalize_ir (normalize_ir ir) = normalize_ir ir :=
  normalize_ir_idem_of_edges ir h

/-- Edges-present IR used to witness the amended idempotence claim. -/
def c4WitnessIR : NIR :=
  { nodes := [{ id := "A" }, { id := "B" }], edges := [{ src := "A", dst := "B" }] }

theorem normalize_ir_idempotent_witness :
    c4WitnessIR.edges ≠ [] ∧ normalize_ir (normalize_ir c4WitnessIR) = normalize_ir c4WitnessIR :=
  ⟨by decide, normalize_ir_idempotent_of_edges_present c4WitnessIR (by decide)⟩

/-- Edges-absent IR with a duplicated entry in a node's `inputs`. -/
def c4CexIR : NIR :=
  { nodes := [{ id := "A" }, { id := "B", inputs := ["A", "A"] }], edges := [] }

/-- Claim C4 as stated is false: a second `normalize_ir` de-duplicates the
`inputs` of node "B" (`["A", "A"]` becomes `["A"]`), so the double
application differs from the single one. -/
theorem normalize_ir_not_idempotent :
    normalize_ir (normalize_ir c4CexIR) ≠ normalize_ir c4CexIR := by
  decide

/-! ## Python values and literal type inference (`validator.py` lines 54-64)

`PyVal` models the dynamically-typed `properties.value` of a `Literal`
node.  A Python `bool` is a subclass of `int`, which matters below;
`pfloat` carries its display text (the float's numeric value is never
inspected by the compiler).  `pnone` stands for `None` / a missing key. -/

inductive PyVal where
  | pstr (s : String)
  | pbool (b : Bool)
  | pint (n : Int)
  | pfloat (text : String)
  | pnone
deriving DecidableEq

def pyIsStr : PyVal → Bool
  | .pstr _ => true
  | _ => false

def pyIsBool : PyVal → Bool
  | .pbool _ => true
  | _ => false

/-- `isinstance(val, int)`: true for Python `bool` too (bool ⊂ int). -/
def pyIsInt : PyVal → Bool
  | .pint _ => true
  | .pbool _ => true
  | _ => false

def pyIsFloat : PyVal → Bool
  | .pfloat _ => true
  | _ => false

/-- `_infer_literal_type` (`validator.py` lines 54-64): checks `bool` first,
then non-bool `int`, `float`, `str`, else `any`. -/
def _infer_literal_type (val : PyVal) : String :=
  if pyIsBool val then "bool"
  else if pyIsInt val && !pyIsBool val then "int"
  else if pyIsFloat val then "double"
  else if pyIsStr val then "string"
  else "any"

/-! ## Type lattice (`validator.py` lines 67-96) -/

/-- ASCII lowercasing of one character (the catalog's type names are ASCII;
`str.lower()` on them only affects `A`-`Z`). -/
def lowerChar (c : Char) : Char :=
  if c = 'A' then 'a' else if c = 'B' then 'b' else if c = 'C' then 'c'
  else if c = 'D' then 'd' else if c = 'E' then 'e' else if c = 'F' then 'f'
  else if c = 'G' then 'g' else if c = 'H' then 'h' else if c = 'I' then 'i'
  else if c = 'J' then 'j' else if c = 'K' then 'k' else if c = 'L' then 'l'
  else if c = 'M' then 'm' else if c = 'N' then 'n' else if c = 'O' then 'o'
  else if c = 'P' then 'p' else if c = 'Q' then 'q' else if c = 'R' then 'r'
  else if c = 'S' then 's' else if c = 'T' then 't' else if c = 'U' then 'u'
  else if c = 'V' then 'v' else if c = 'W' then 'w' else if c = 'X' then 'x'
  else if c = 'Y' then 'y' else if c = 'Z' then 'z' else c

/-- `str.lower()`. -/
def pyLower (s : String) : String :=
  String.mk (s.data.map lowerChar)

/-- `_canonical_type` (`validator.py` lines 67-82).  `if not t` catches both
`None` and the empty string. -/
def _canonical_type (t : Option String) : String :=
  match t with
  | none => "any"
  | some s =>
    if s = "" then "any"
    else
      let t := pyLower s
      if t = "number" || t = "double" || t = "float" then "double"
      else if t = "int" then "int"
      else if t = "string" then "string"
      else if t = "bool" then "bool"
      else if t = "any" || t = "auto" then "any"
      else t

/-- `_is_compatible` (`validator.py` lines 85-96). -/
def _is_compatible (expected actual : Option String) : Bool :=
  let e := _canonical_type expected
  let a := _canonical_type actual
  if e = "any" || a = "any" then true
  else if e = a then true
  else if e = "double" && a = "int" then true
  else false

/-! ## Validator data model (`validator.py`, `validate_types`, lines 99-208)

Catalog descriptors are Python dicts; a key can be absent (`Option.none`)
or present with an empty list.  `node_defs.get(t)` failing OR returning an
empty (falsy) dict raises `UnknownNodeType`, so descriptor truthiness is
modelled explicitly. -/

structure VPort where
  name : Option String := none
  type : Option String := none
deriving DecidableEq

structure VTDef where
  inputs : Option (List VPort) := none
  outputs : Option (List VPort) := none
  lib : Option Unit := none
deriving DecidableEq

/-- Python truthiness of a descriptor dict: non-empty. -/
def tdefTruthy (d : VTDef) : Bool :=
  d.inputs.isSome || d.outputs.isSome || d.lib.isSome

structure VNode where
  id : String
  ntype : String
  value : PyVal := .pnone
  inputs : List String := []
deriving DecidableEq

structure VEdge where
  src : String
  dst : String
  fromPort : Option String := none
  toPort : Option String := none
deriving DecidableEq

/-- Connection tuple `(frm, to, toPort, fromPort)`. -/
structure VConn where
  frm : String
  dst : String
  toPort : Option String := none
  fromPort : Option String := none
deriving DecidableEq

inductive VError where
  | unknownNodeType (node_id node_type : String)
  | unknownEndpoint (src dst : String)
  | missingInputPort (node port : String) (validPorts : List (Option String))
  | missingOutputPort (node port : String) (validPorts : List (Option String))
  | typeMismatch (src dst : String) (toPort : Option String)
      (expected actual suggested_cast : Option String)
deriving DecidableEq

/-- Python string truthiness for an optional string: `None` and `""` are
falsy. -/
def strTruthy (o : Option String) : Bool :=
  match o with
  | none => false
  | some s => s ≠ ""

/-- Association-list store with `dict` assignment semantics (overwrite). -/
def setA {κ β : Type} [DecidableEq κ] (m : List (κ × β)) (k : κ) (v : β) : List (κ × β) :=
  if (lookupA m k).isSome then m.map (fun p => if p.1 = k then (k, v) else p)
  else m ++ [(k, v)]

/-- First pass of `validate_types`: every node's type must be in the catalog
with a truthy descriptor (`if not tdef: raise`). -/
def checkNodeTypes (node_defs : List (String × VTDef)) : List VNode → Except VError Unit
  | [] => .ok ()
  | n :: rest =>
    match lookupA node_defs n.ntype with
    | some d =>
      if tdefTruthy d then checkNodeTypes node_defs rest
      else .error (.unknownNodeType n.id n.ntype)
    | none => .error (.unknownNodeType n.id n.ntype)

/-- The `id_to_out_type` table: literals first (inferred type), then other
nodes from the first declared catalog output, skipping ids already present. -/
def buildOutTypes (nodes : List VNode) (node_defs : List (String × VTDef)) :
    List (String × Option String) :=
  let m1 := nodes.foldl (fun m n =>
    if n.ntype == "Literal" then setA m n.id (some (_infer_literal_type n.value)) else m) []
  nodes.foldl (fun m n =>
    if (lookupA m n.id).isSome then m
    else
      match lookupA node_defs n.ntype with
      | some d =>
        match d.outputs.getD [] with
        | [] => m
        | p :: _ => setA m n.id p.type
      | none => m) m1

/-- Connection list: from `edges` if non-empty, else synthesized positional
connections from each node's `inputs`. -/
def buildConns (nodes : List VNode) (edges : List VEdge) : List VConn :=
  if edges ≠ [] then
    edges.map (fun e => { frm := e.src, dst := e.dst, toPort := e.toPort, fromPort := e.fromPort })
  else
    nodes.flatMap (fun n => n.inputs.map (fun inp => { frm := inp, dst := n.id : VConn }))

/-- Endpoint existence check over the connection list, in order. -/
def checkEndpoints (nodes : List VNode) : List VConn → Except VError Unit
  | [] => .ok ()
  | c :: rest =>
    if (nodes.any (fun n => n.id == c.frm)) && (nodes.any (fun n => n.id == c.dst)) then
      checkEndpoints nodes rest
    else .error (.unknownEndpoint c.frm c.dst)

/-- `id_to_node[i]`: Python dict comprehension keeps the last node with a
given id.  After `checkEndpoints` the lookup always succeeds; `default` is
unreachable. -/
def idToNodeV (nodes : List VNode) (i : String) : VNode :=
  ((nodes.reverse).find? (fun n => n.id == i)).getD { id := i, ntype := "" }

/-- The destination's declared input ports:
`node_defs.get(dest_node['type'], {}).get('inputs', [])`. -/
def destInputsOf (node_defs : List (String × VTDef)) (nodes : List VNode) (c : VConn) :
    List VPort :=
  ((lookupA node_defs (idToNodeV nodes c.dst).ntype).map (fun d => d.inputs.getD [])).getD []

/-- The source's declared output ports. -/
def srcOutputsOf (node_defs : List (String × VTDef)) (nodes : List VNode) (c : VConn) :
    List VPort :=
  ((lookupA node_defs (idToNodeV nodes c.frm).ntype).map (fun d => d.outputs.getD [])).getD []

/-- Expected type for one connection (`validator.py` lines 158-174): a truthy
`toPort` must name a declared input port; otherwise the positional index
selects the port, and an index beyond the declared arity yields `'any'`. -/
def expectedFor (dest : String) (destInputs : List VPort) (c : VConn) (idx : Nat) :
    Except VError (Option String) :=
  if strTruthy c.toPort then
    match destInputs.find? (fun p => p.name == c.toPort) with
    | some p => .ok p.type
    | none => .error (.missingInputPort dest (c.toPort.getD "") (destInputs.map (·.name)))
  else
    match destInputs.drop idx with
    | p :: _ => .ok p.type
    | [] => .ok (some "any")

/-- Actual type for one connection (`validator.py` lines 176-196): a truthy
`fromPort` must name a declared output port; otherwise the inferred
output-type table is consulted (`if not actual:` falls back to the first
declared output, else `'any'`). -/
def actualFor (src : String) (srcOutputs : List VPort)
    (outTypes : List (String × Option String)) (c : VConn) :
    Except VError (Option String) :=
  if strTruthy c.fromPort then
    match srcOutputs.find? (fun p => p.name == c.fromPort) with
    | some p => .ok p.type
    | none => .error (.missingOutputPort src (c.fromPort.getD "") (srcOutputs.map (·.name)))
  else
    let stored := lookupA outTypes c.frm
    if strTruthy (stored.getD none) then .ok (stored.getD none)
    else
      match srcOutputs with
      | p :: _ => .ok p.type
      | [] => .ok (some "any")

/-- One connection's full check (`validator.py` lines 157-206): resolve
expected and actual, then raise `TypeMismatch` carrying
`{from, to, toPort, expected, actual, suggested_cast := expected}` when
they are not assignable. -/
def connCheck (node_defs : List (String × VTDef)) (outTypes : List (String × Option String))
    (nodes : List VNode) (c : VConn) (idx : Nat) : Except VError Unit := do
  let expected ← expectedFor c.dst (destInputsOf node_defs nodes c) c idx
  let actual ← actualFor c.frm (srcOutputsOf node_defs nodes c) outTypes c
  if _is_compatible expected actual then .ok ()
  else .error (.typeMismatch c.frm c.dst c.toPort expected actual expected)

/-- Check the incoming connections of one destination, positional index
running over the whole incoming list (named and positional alike). -/
def checkIncoming (node_defs : List (String × VTDef)) (outTypes : List (String × Option String))
    (nodes : List VNode) : List VConn → Nat → Except VError Unit
  | [], _ => .ok ()
  | c :: rest, idx => do
    connCheck node_defs outTypes nodes c idx
    checkIncoming node_defs outTypes nodes rest (idx + 1)

/-- Destinations processed in first-appearance order (Python dict insertion
order of `incoming_by_dest`). -/
def checkDests (node_defs : List (String × VTDef)) (outTypes : List (String × Option String))
    (nodes : List VNode) (conns : List VConn) : List String → Except VError Unit
  | [] => .ok ()
  | d :: rest => do
    checkIncoming node_defs outTypes nodes (conns.filter (fun c => c.dst == d)) 0
    checkDests node_defs outTypes nodes conns rest

/-- Embedding of `validate_types` (`validator.py` lines 99-208). -/
def validate_types (nodes : List VNode) (node_defs : List (String × VTDef))
    (edges : List VEdge) : Except VError Unit := do
  checkNodeTypes node_defs nodes
  let outTypes := buildOutTypes nodes node_defs
  let conns := buildConns nodes edges
  checkEndpoints nodes conns
  checkDests node_defs outTypes nodes conns (pdedup (conns.map (·.dst)))

/-- Claim C2 (confirmed): for a connection checked by `validate_types`
(`connCheck` is the per-connection body), the `TypeMismatch` error is
raised if and only if the actual type is not assignable to the expected
type, the raised error carries `{from, to, toPort, expected, actual,
suggested_cast = expected}`, and assignability is exactly: `any` on either
side, equal canonical types, or the `int → double` widening (so `double`
never narrows to `int`). -/
theorem connCheck_typeMismatch_iff
    (node_defs : List (String × VTDef)) (outTypes : List (String × Option String))
    (nodes : List VNode) (c : VConn) (idx : Nat) (expected actual : Option String)
    (he : expectedFor c.dst (destInputsOf node_defs nodes c) c idx = .ok expected)
    (ha : actualFor c.frm (srcOutputsOf node_defs nodes c) outTypes c = .ok actual) :
    (connCheck node_defs outTypes nodes c idx
        = .error (.typeMismatch c.frm c.dst c.toPort expected actual expected)
      ↔ _is_compatible expected actual = false)
    ∧ (connCheck node_defs outTypes nodes c idx = .ok ()
      ↔ _is_compatible expected actual = true)
    ∧ (_is_compatible expected actual = true
      ↔ (_canonical_type expected = "any" ∨ _canonical_type actual = "any"
          ∨ _canonical_type expected = _canonical_type actual
          ∨ (_canonical_type expected = "double" ∧ _canonical_type actual = "int"))) := by
  have hcc : connCheck node_defs outTypes nodes c idx
      = if _is_compatible expected actual then .ok ()
        else .error (.typeMismatch c.frm c.dst c.toPort expected actual expected) := by
    simp only [connCheck, he, ha]
    rfl
  refine ⟨?_, ?_, ?_⟩
  · rw [hcc]
    by_cases h : _is_compatible expected actual <;> simp [h]
  · rw [hcc]
    by_cases h : _is_compatible expected actual <;> simp [h]
  · unfold _is_compatible
    dsimp only
    split_ifs with h1 h2 h3 <;>
      simp_all [Bool.or_eq_true, Bool.and_eq_true, decide_eq_true_eq] <;> tauto

/-- Destination declaring a single `int` input port. -/
def c2Defs : List (String × VTDef) :=
  [("Num", { outputs := some [{ name := some "o", type := some "double" }] }),
   ("Dest", { inputs := some [{ name := some "a", type := some "int" }] })]

def c2Nodes : List VNode :=
  [{ id := "n", ntype := "Num" }, { id := "d", ntype := "Dest" }]

def c2Conn : VConn := { frm := "n", dst := "d", toPort := some "a" }

theorem connCheck_typeMismatch_iff_witness :
    expectedFor c2Conn.dst (destInputsOf c2Defs c2Nodes c2Conn) c2Conn 0 = .ok (some "int")
    ∧ actualFor c2Conn.frm (srcOutputsOf c2Defs c2Nodes c2Conn) [] c2Conn = .ok (some "double")
    ∧ ((connCheck c2Defs [] c2Nodes c2Conn 0
          = .error (.typeMismatch c2Conn.frm c2Conn.dst c2Conn.toPort
              (some "int") (some "double") (some "int"))
        ↔ _is_compatible (some "int") (some "double") = false)
      ∧ (connCheck c2Defs [] c2Nodes c2Conn 0 = .ok ()
        ↔ _is_compatible (some "int") (some "double") = true)
      ∧ (_is_compatible (some "int") (some "double") = true
        ↔ (_canonical_type (some "int") = "any" ∨ _canonical_type (some "double") = "any"
            ∨ _canonical_type (some "int") = _canonical_type (some "double")
            ∨ (_canonical_type (some "int") = "double"
                ∧ _canonical_type (some "double") = "int")))) :=
  ⟨rfl, rfl,
    connCheck_typeMismatch_iff c2Defs [] c2Nodes c2Conn 0 (some "int") (some "double")
      rfl rfl⟩

theorem actualFor_ok_of_no_fromPort (src : String) (srcOutputs : List VPort)
    (outTypes : List (String × Option String)) (c : VConn)
    (hfp : strTruthy c.fromPort = false) :
    ∃ a, actualFor src srcOutputs outTypes c = .ok a := by
  unfold actualFor
  rw [hfp]
  simp only [Bool.false_eq_true, if_false]
  by_cases h : strTruthy ((lookupA outTypes c.frm).getD none)
  · exact ⟨_, by rw [if_pos h]⟩
  · rw [if_neg h]
    cases srcOutputs with
    | nil => exact ⟨some "any", rfl⟩
    | cons p rest => exact ⟨p.type, rfl⟩

theorem canonical_any : _canonical_type (some "any") = "any" := by decide

/-- Claim C8 (corrected, amended): `validate_types` does NOT reject a
destination for having more incoming connections than its declared arity.
A positional connection whose index is beyond the declared input list gets
expected type `'any'`, which is assignable from everything, so the
connection is accepted (a truthy `toPort` naming an undeclared port is
still rejected, but no count-based check exists). -/
theorem connCheck_positional_overflow_ok
    (node_defs : List (String × VTDef)) (outTypes : List (String × Option String))
    (nodes : List VNode) (c : VConn) (idx : Nat)
    (htp : strTruthy c.toPort = false)
    (hfp : strTruthy c.fromPort = false)
    (hidx : (destInputsOf node_defs nodes c).length ≤ idx) :
    expectedFor c.dst (destInputsOf node_defs nodes c) c idx = .ok (some "any")
    ∧ connCheck node_defs outTypes nodes c idx = .ok () := by
  have hdrop : (destInputsOf node_defs nodes c).drop idx = [] :=
    List.drop_eq_nil_of_le hidx
  have he : expectedFor c.dst (destInputsOf node_defs nodes c) c idx = .ok (some "any") := by
    unfold expectedFor
    rw [htp]
    simp only [Bool.false_eq_true, if_false, hdrop]
  refine ⟨he, ?_⟩
  rcases actualFor_ok_of_no_fromPort c.frm (srcOutputsOf node_defs nodes c) outTypes c hfp
    with ⟨a, ha⟩
  have hcompat : _is_compatible (some "any") a = true := by
    unfold _is_compatible
    rw [canonical_any]
    simp
  have hcc2 : connCheck node_defs outTypes nodes c idx
      = if _is_compatible (some "any") a = true then Except.ok ()
        else Except.error
          (VError.typeMismatch c.frm c.dst c.toPort (some "any") a (some "any")) := by
    simp only [connCheck, he, ha]
    rfl
  rw [hcc2, hcompat]
  simp

/-- Arity-1 destination receiving two positional connections. -/
def c8Defs : List (String × VTDef) :=
  [("Literal", { outputs := some [{ name := some "out", type := some "number" }] }),
   ("Print", { inputs := some [{ name := some "value", type := some "number" }] })]

def c8Nodes : List VNode :=
  [{ id := "l1", ntype := "Literal", value := .pint 1 },
   { id := "l2", ntype := "Literal", value := .pint 2 },
   { id := "p", ntype := "Print" }]

def c8Edges : List VEdge :=
  [{ src := "l1", dst := "p" }, { src := "l2", dst := "p" }]

/-- Claim C8 as stated is false: destination "p" declares one input but
receives two positional connections, and `validate_types` accepts the
graph. -/
theorem validate_types_accepts_arity_overflow :
    ((buildConns c8Nodes c8Edges).filter (fun c => c.dst == "p")).length = 2
    ∧ (destInputsOf c8Defs c8Nodes { frm := "l2", dst := "p" }).length = 1
    ∧ validate_types c8Nodes c8Defs c8Edges = .ok () :=
  ⟨by decide, by decide, rfl⟩

def c8Conn : VConn := { frm := "l2", dst := "p" }

theorem connCheck_positional_overflow_ok_witness :
    strTruthy c8Conn.toPort = false
    ∧ strTruthy c8Conn.fromPort = false
    ∧ (destInputsOf c8Defs c8Nodes c8Conn).length ≤ 1
    ∧ (expectedFor c8Conn.dst (destInputsOf c8Defs c8Nodes c8Conn) c8Conn 1 = .ok (some "any")
      ∧ connCheck c8Defs (buildOutTypes c8Nodes c8Defs) c8Nodes c8Conn 1 = .ok ()) :=
  ⟨by decide, by decide, by decide,
    connCheck_positional_overflow_ok c8Defs (buildOutTypes c8Nodes c8Defs) c8Nodes c8Conn 1
      (by decide) (by decide) (by decide)⟩

/-! ## Emitter: source-map fragments (`cpp_emitter.py` lines 93-133)

A mapping entry `{node_id, function?, start_line, end_line, start_col?,
end_col?, port?}`; coarse entries (from `record_map`) have no columns until
finalization. -/

structure MapEntry where
  node_id : String
  function : Option String := none
  start_line : Nat
  end_line : Nat
  start_col : Option Nat := none
  end_col : Option Nat := none
  port : Option String := none
deriving DecidableEq

/-- A line fragment `{text, marker?}` with `marker = (node_id, port)`. -/
structure Frag where
  text : String
  marker : Option (String × Option String) := none
deriving DecidableEq

/-- The per-fragment mapping entries of `emit_line_with_fragments`:
a marked fragment at running `offset` spans columns
`offset + 1 … offset + len(text)` of line `lineNo`. -/
def fragEntries (lineNo : Nat) (func : Option String) : List Frag → Nat → List MapEntry
  | [], _ => []
  | f :: rest, offset =>
    (match f.marker with
     | some (nid, port) =>
       [{ node_id := nid, function := func, start_line := lineNo, end_line := lineNo,
          start_col := some (offset + 1), end_col := some (offset + f.text.length),
          port := port }]
     | none => []) ++ fragEntries lineNo func rest (offset + f.text.length)

/-- Embedding of `emit_line_with_fragments` (`cpp_emitter.py` lines 104-133):
appends the concatenated fragment texts as one line, then records one
mapping entry per marked fragment; returns the new code lines, the new
mapping and the 1-based line number. -/
def emit_line_with_fragments (codeLines : List String) (mapping : List MapEntry)
    (frags : List Frag) (func : Option String) : List String × List MapEntry × Nat :=
  let lineText := (frags.map (·.text)).foldl (· ++ ·) ""
  let codeLines' := codeLines ++ [lineText]
  let lineNo := codeLines'.length
  (codeLines', mapping ++ fragEntries lineNo func frags 0, lineNo)

/-- `x or dflt` for an optional string (`None` and `""` are falsy). -/
def strOr (o : Option String) (dflt : String) : String :=
  match o with
  | some s => if s = "" then dflt else s
  | none => dflt

/-- The fragment list built for an `Add|Sub|Mul|Div` node
(`cpp_emitter.py` lines 518-524, identically lines 381-387 inside a
function): declaration text, operand `a` with marker `(nid, a_port or 'a')`,
the operator, operand `b` with marker `(nid, b_port or 'b')`, semicolon. -/
def arithFragments (indentStr var a b op nid : String) (aPort bPort : Option String) :
    List Frag :=
  [{ text := indentStr ++ "double " ++ var ++ " = " },
   { text := a, marker := some (nid, some (strOr aPort "a")) },
   { text := " " ++ op ++ " " },
   { text := b, marker := some (nid, some (strOr bPort "b")) },
   { text := ";" }]

/-- Claim C1 (confirmed): emitting an arithmetic node whose two operands are
the same resolved variable text `v` records exactly two new mapping entries
for that node, on the same `start_line`, with present, distinct and
disjoint `(start_col, end_col)` column ranges — one per operand port. -/
theorem arith_duplicate_operand_mapping
    (codeLines : List String) (mapping : List MapEntry)
    (indentStr var op nid v : String) (aPort bPort : Option String)
    (func : Option String) :
    ∃ e1 e2 : MapEntry,
      (emit_line_with_fragments codeLines mapping
          (arithFragments indentStr var v v op nid aPort bPort) func).2.1
        = mapping ++ [e1, e2]
      ∧ e1.node_id = nid ∧ e2.node_id = nid
      ∧ e1.start_line = e2.start_line
      ∧ e1.port = some (strOr aPort "a") ∧ e2.port = some (strOr bPort "b")
      ∧ (∃ s1 f1 s2 f2 : Nat,
          e1.start_col = some s1 ∧ e1.end_col = some f1
          ∧ e2.start_col = some s2 ∧ e2.end_col = some f2
          ∧ f1 < s2 ∧ s1 < s2) := by
  refine ⟨_, _, rfl, rfl, rfl, rfl, rfl, rfl, ?_⟩
  refine ⟨_, _, _, _, rfl, rfl, rfl, rfl, ?_, ?_⟩ <;>
    · simp only [String.length_append]
      simp
      have h1 : " ".length = 1 := rfl
      omega

/-! ## Emitter: literal emission (`cpp_emitter.py` lines 477-493 top level,
lines 320-335 function scope — the same `isinstance` chain in both) -/

/-- `escape_string` (`cpp_emitter.py` lines 80-83). -/
def escape_string (s : String) : String :=
  (((s.replace "\\" "\\\\").replace "\"" "\\\"").replace "\n" "\\n").replace "\t" "\\t"

/-- Python `str(val)` for the values a `Literal` can carry. -/
def pyStr : PyVal → String
  | .pstr s => s
  | .pbool b => if b then "True" else "False"
  | .pint n => toString n
  | .pfloat t => t
  | .pnone => "None"

/-- The C++ type and literal text chosen for a `Literal` node's value: the
`isinstance(val, str)` / `isinstance(val, int) or isinstance(val, float)`
chain shared verbatim by the top-level branch (lines 480-489) and the
function-scope branch (lines 321-331).  A Python `bool` satisfies
`isinstance(val, int)`. -/
def emitLiteralParts (val : PyVal) : String × String :=
  if pyIsStr val then ("std::string", "\"" ++ escape_string (pyStr val) ++ "\"")
  else if pyIsInt val || pyIsFloat val then ("double", pyStr val)
  else ("auto", pyStr val)

/-- Claim C3 as stated is false: a boolean literal value is emitted with C++
type `double`, not `bool` (Python `bool` is a subclass of `int`, and the
emitter tests `isinstance(val, int)` with no boolean case). -/
theorem literal_bool_emits_double :
    (emitLiteralParts (.pbool true)).1 = "double"
    ∧ (emitLiteralParts (.pbool true)).1 ≠ "bool" := by
  exact ⟨rfl, by decide⟩

/-- Claim C3 (corrected, amended): the C++ type of a literal binding is
determined solely by the kind of the value — text → `std::string`; boolean,
integer or floating → `double` (booleans fall into the integer case);
otherwise `auto`.  This is the chain used by both emission scopes; note the
top-level branch then passes the undefined name `name` as the mapping's
`function` label (`cpp_emitter.py` line 493), a slip under which the
repository's own tests crash before any top-level literal line is recorded. -/
theorem emitLiteralParts_type (val : PyVal) :
    (emitLiteralParts val).1 = (match val with
      | .pstr _ => "std::string"
      | .pbool _ => "double"
      | .pint _ => "double"
      | .pfloat _ => "double"
      | .pnone => "auto") := by
  cases val <;> rfl

/-! ## Emitter: operand resolution (`cpp_emitter.py` lines 160-180, 509-514,
371-376) -/

/-- Python dict truthiness for an optional dict parameter. -/
def dictTruthy {β : Type} (o : Option (List (String × β))) : Bool :=
  match o with
  | none => false
  | some l => !l.isEmpty

/-- Embedding of `_resolve_input_for_node` (`cpp_emitter.py` lines 160-180):
try the function-local port map, the global port map, the function-local
positional list, the global positional list, then the legacy `node.inputs`
array (the last only when `port_name is None`).  `none` means unresolved. -/
def _resolve_input_for_node
    (incomingBy : List (String × List (String × String)))
    (incomingList : List (String × List String))
    (nid : String) (inputs : List String)
    (portName : Option String) (index : Option Nat)
    (localMap : Option (List (String × List (String × String))))
    (localList : Option (List (String × List String))) : Option String :=
  (match localMap, portName with
   | some m, some pn =>
     if !m.isEmpty && (lookupA m nid).isSome && strTruthy portName then
       (lookupA m nid).bind (fun pm => lookupA pm pn)
     else none
   | _, _ => none)
  <|>
  (match portName with
   | some pn =>
     if !incomingBy.isEmpty && (lookupA incomingBy nid).isSome && strTruthy portName then
       (lookupA incomingBy nid).bind (fun pm => lookupA pm pn)
     else none
   | none => none)
  <|>
  (match index with
   | some i =>
     (match localList with
      | some ll =>
        if !ll.isEmpty && (lookupA ll nid).isSome then
          (lookupA ll nid).bind (fun l => l[i]?)
        else none
      | none => none)
     <|>
     ((lookupA incomingList nid).bind (fun l => l[i]?))
   | none => none)
  <|>
  (match portName, index with
   | none, some i => inputs[i]?
   | _, _ => none)

/-- The operand expression text
(`a = self.var_names.get(a_src, a_src if a_src else '0')`,
`cpp_emitter.py` lines 513-514 and 375-376). -/
def operandExpr (varNames : List (String × String)) (src : Option String) : String :=
  match src with
  | none => "0"
  | some s => (lookupA varNames s).getD (if s = "" then "0" else s)

/-- Claim C10 (confirmed): arithmetic emission never fails on an unresolved
operand — `_resolve_input_for_node` returns an `Option`, and the operand
text substituted into the emitted expression is the literal token `0` when
the source is unresolved, the raw source-id text when the source resolves
but has no bound variable, and the bound variable otherwise. -/
theorem arith_operand_fallback
    (incomingBy : List (String × List (String × String)))
    (incomingList : List (String × List String))
    (nid : String) (inputs : List String)
    (portName : Option String) (index : Option Nat)
    (localMap : Option (List (String × List (String × String))))
    (localList : Option (List (String × List String)))
    (varNames : List (String × String)) :
    (_resolve_input_for_node incomingBy incomingList nid inputs portName index localMap localList
        = none →
      operandExpr varNames (_resolve_input_for_node incomingBy incomingList nid inputs portName
        index localMap localList) = "0")
    ∧ (∀ s, _resolve_input_for_node incomingBy incomingList nid inputs portName index localMap
          localList = some s → lookupA varNames s = none → s ≠ "" →
      operandExpr varNames (_resolve_input_for_node incomingBy incomingList nid inputs portName
        index localMap localList) = s)
    ∧ (∀ s v, _resolve_input_for_node incomingBy incomingList nid inputs portName index localMap
          localList = some s → lookupA varNames s = some v →
      operandExpr varNames (_resolve_input_for_node incomingBy incomingList nid inputs portName
        index localMap localList) = v) := by
  refine ⟨?_, ?_, ?_⟩
  · intro h
    rw [h]
    rfl
  · intro s h hl hs
    rw [h]
    simp [operandExpr, hl, hs]
  · intro s v h hl
    rw [h]
    simp [operandExpr, hl]

theorem arith_operand_fallback_witness :
    _resolve_input_for_node [] [] "add1" [] none (some 0) none none = none
    ∧ operandExpr [] (_resolve_input_for_node [] [] "add1" [] none (some 0) none none) = "0" :=
  ⟨rfl, (arith_operand_fallback [] [] "add1" [] none (some 0) none none []).1 rfl⟩

/-! ## Diagnostic mapper (`emit_and_compile.py`, `map_errors_to_nodes`,
lines 47-77)

A parsed g++ diagnostic carries a line and an optional column (its file,
kind and message play no role in node resolution).  Python's stable
`list.sort` followed by `[0]` selects the first element with the
lexicographically minimal key; `pickFirstMin` computes exactly that
element.  The line-only fallback sorts by the scalar line span, modelled
as the pair `(span, 0)`. -/

structure Diag where
  line : Nat
  col : Option Nat := none
deriving DecidableEq

structure MappedErr where
  node_id : Option String := none
  function : Option String := none
  port : Option String := none
deriving DecidableEq

/-- Python integer truthiness (`if sline and eline`). -/
def natTruthy (n : Nat) : Bool := n ≠ 0

/-- Truthiness of an optional integer (`if scol and ecol`). -/
def onatTruthy (o : Option Nat) : Bool :=
  match o with
  | none => false
  | some v => v ≠ 0

/-- The column-enclosing test of the first pass: truthy line and column
fields, `sline <= line <= eline` and `scol <= col <= ecol`. -/
def colEncloses (m : MapEntry) (line col : Nat) : Bool :=
  natTruthy m.start_line && natTruthy m.end_line
    && (m.start_line ≤ line) && (line ≤ m.end_line)
    && onatTruthy m.start_col && onatTruthy m.end_col
    && (m.start_col.getD 0 ≤ col) && (col ≤ m.end_col.getD 0)

/-- The line-enclosing test of the fallback pass. -/
def lineEncloses (m : MapEntry) (line : Nat) : Bool :=
  natTruthy m.start_line && natTruthy m.end_line
    && (m.start_line ≤ line) && (line ≤ m.end_line)

def colMatches (mapping : List MapEntry) (line col : Nat) : List MapEntry :=
  mapping.filter (fun m => colEncloses m line col)

def lineMatches (mapping : List MapEntry) (line : Nat) : List MapEntry :=
  mapping.filter (fun m => lineEncloses m line)

/-- Sort key of the column pass: `(line-span, col-span)`. -/
def colKey (m : MapEntry) : Nat × Nat :=
  (m.end_line - m.start_line, m.end_col.getD 0 - m.start_col.getD 0)

/-- Sort key of the line fallback: the scalar `line-span`, padded to a pair. -/
def lineKey (m : MapEntry) : Nat × Nat :=
  (m.end_line - m.start_line, 0)

/-- Lexicographic strict order on sort keys. -/
def lexLt (p q : Nat × Nat) : Bool :=
  p.1 < q.1 || (p.1 == q.1 && p.2 < q.2)

theorem lexLt_iff (p q : Nat × Nat) :
    lexLt p q = true ↔ (p.1 < q.1 ∨ (p.1 = q.1 ∧ p.2 < q.2)) := by
  simp [lexLt]

theorem lexLt_false_iff (p q : Nat × Nat) :
    lexLt p q = false ↔ ¬(p.1 < q.1 ∨ (p.1 = q.1 ∧ p.2 < q.2)) := by
  rw [← Bool.not_eq_true, lexLt_iff]

/-- The first element with the lexicographically minimal key — what a stable
ascending sort followed by `[0]` returns. -/
def pickFirstMin {α : Type} (key : α → Nat × Nat) : List α → Option α
  | [] => none
  | a :: l =>
    match pickFirstMin key l with
    | none => some a
    | some b => if lexLt (key b) (key a) then some b else some a

theorem pickFirstMin_none_iff {α : Type} (key : α → Nat × Nat) (l : List α) :
    pickFirstMin key l = none ↔ l = [] := by
  cases l with
  | nil => simp [pickFirstMin]
  | cons a l =>
    simp only [pickFirstMin]
    cases h : pickFirstMin key l with
    | none => simp
    | some b =>
      by_cases hlt : lexLt (key b) (key a) = true <;> simp [hlt]

theorem pickFirstMin_spec {α : Type} (key : α → Nat × Nat) (l : List α) (a : α)
    (h : pickFirstMin key l = some a) :
    a ∈ l ∧ ∀ x ∈ l, lexLt (key x) (key a) = false := by
  induction l generalizing a with
  | nil => simp [pickFirstMin] at h
  | cons c l ih =>
    rw [pickFirstMin] at h
    cases hb : pickFirstMin key l with
    | none =>
      rw [hb] at h
      have hl : l = [] := (pickFirstMin_none_iff key l).mp hb
      cases h
      subst hl
      refine ⟨List.mem_cons_self _ _, ?_⟩
      intro x hx
      rcases List.mem_singleton.mp hx with rfl
      rw [lexLt_false_iff]
      omega
    | some b =>
      rw [hb] at h
      dsimp only at h
      obtain ⟨hmem, hmin⟩ := ih b hb
      by_cases hlt : lexLt (key b) (key c) = true
      · rw [if_pos hlt] at h
        cases h
        refine ⟨List.mem_cons_of_mem c hmem, ?_⟩
        intro x hx
        rcases List.mem_cons.mp hx with rfl | hx
        · rw [lexLt_iff] at hlt
          rw [lexLt_false_iff]
          omega
        · exact hmin x hx
      · rw [if_neg hlt] at h
        cases h
        rw [Bool.not_eq_true, lexLt_false_iff] at hlt
        refine ⟨List.mem_cons_self _ _, ?_⟩
        intro x hx
        rcases List.mem_cons.mp hx with rfl | hx
        · rw [lexLt_false_iff]
          omega
        · have := hmin x hx
          rw [lexLt_false_iff] at this ⊢
          omega

/-- The column-pass candidate list: computed only when the diagnostic has a
column (`if col is not None`). -/
def colCandidates (mapping : List MapEntry) (err : Diag) : List MapEntry :=
  match err.col with
  | some c => colMatches mapping err.line c
  | none => []

/-- Resolution of one diagnostic (`map_errors_to_nodes`, per-error body):
smallest column-enclosing span, else smallest line-enclosing span, else
`node_id = null`. -/
def resolve_error (mapping : List MapEntry) (err : Diag) : MappedErr :=
  match pickFirstMin colKey (colCandidates mapping err) with
  | some m => { node_id := some m.node_id, function := m.function, port := m.port }
  | none =>
    match pickFirstMin lineKey (lineMatches mapping err.line) with
    | some m => { node_id := some m.node_id, function := m.function, port := m.port }
    | none => { node_id := none, function := none, port := none }

/-- Embedding of `map_errors_to_nodes` (`emit_and_compile.py` lines 47-77),
node-resolution part: one mapped record per diagnostic, in order. -/
def map_errors_to_nodes (errors : List Diag) (mapping : List MapEntry) : List MappedErr :=
  errors.map (resolve_error mapping)

/-- Claim C7 (confirmed): error-to-node resolution picks, when the
diagnostic has a column and some entry encloses `(line, col)` in both its
ranges, an enclosing entry with lexicographically minimal
`(line-span, col-span)`; otherwise an entry with minimal line-span among
those whose line range contains `line`; otherwise `node_id = null`. -/
theorem resolve_error_spec (mapping : List MapEntry) (err : Diag) :
    (∀ c, err.col = some c → colMatches mapping err.line c ≠ [] →
      ∃ m ∈ colMatches mapping err.line c,
        (∀ x ∈ colMatches mapping err.line c, lexLt (colKey x) (colKey m) = false)
        ∧ resolve_error mapping err
            = { node_id := some m.node_id, function := m.function, port := m.port })
    ∧ (colCandidates mapping err = [] → lineMatches mapping err.line ≠ [] →
      ∃ m ∈ lineMatches mapping err.line,
        (∀ x ∈ lineMatches mapping err.line,
          ¬(x.end_line - x.start_line < m.end_line - m.start_line))
        ∧ resolve_error mapping err
            = { node_id := some m.node_id, function := m.function, port := m.port })
    ∧ (colCandidates mapping err = [] → lineMatches mapping err.line = [] →
      (resolve_error mapping err).node_id = none) := by
  refine ⟨?_, ?_, ?_⟩
  · intro c hc hne
    have hcand : colCandidates mapping err = colMatches mapping err.line c := by
      simp [colCandidates, hc]
    cases hp : pickFirstMin colKey (colCandidates mapping err) with
    | none =>
      rw [pickFirstMin_none_iff, hcand] at hp
      exact absurd hp hne
    | some m =>
      obtain ⟨hmem, hmin⟩ := pickFirstMin_spec _ _ _ hp
      rw [hcand] at hmem hmin
      refine ⟨m, hmem, hmin, ?_⟩
      rw [resolve_error, hp]
  · intro hcand hne
    have hp0 : pickFirstMin colKey (colCandidates mapping err) = none := by
      rw [pickFirstMin_none_iff]
      exact hcand
    cases hp : pickFirstMin lineKey (lineMatches mapping err.line) with
    | none =>
      rw [pickFirstMin_none_iff] at hp
      exact absurd hp hne
    | some m =>
      obtain ⟨hmem, hmin⟩ := pickFirstMin_spec _ _ _ hp
      refine ⟨m, hmem, ?_, ?_⟩
      · intro x hx
        have := hmin x hx
        rw [lexLt_false_iff] at this
        simp only [lineKey] at this
        omega
      · rw [resolve_error, hp0, hp]
  · intro hcand hlm
    have hp0 : pickFirstMin colKey (colCandidates mapping err) = none := by
      rw [pickFirstMin_none_iff]; exact hcand
    have hp1 : pickFirstMin lineKey (lineMatches mapping err.line) = none := by
      rw [pickFirstMin_none_iff]; exact hlm
    rw [resolve_error, hp0, hp1]

/-- A two-entry mapping: a coarse full-line entry and a nested one-column
entry on line 3; the diagnostic at `(3, 5)` resolves to the inner entry. -/
def c7Mapping : List MapEntry :=
  [{ node_id := "outer", start_line := 1, end_line := 5,
     start_col := some 1, end_col := some 40 },
   { node_id := "inner", start_line := 3, end_line := 3,
     start_col := some 5, end_col := some 9 }]

theorem resolve_error_spec_witness :
    (Diag.mk 3 (some 5)).col = some 5
    ∧ colMatches c7Mapping 3 5 ≠ []
    ∧ (∃ m ∈ colMatches c7Mapping 3 5,
        (∀ x ∈ colMatches c7Mapping 3 5, lexLt (colKey x) (colKey m) = false)
        ∧ resolve_error c7Mapping (Diag.mk 3 (some 5))
            = { node_id := some m.node_id, function := m.function, port := m.port })
    ∧ (resolve_error c7Mapping (Diag.mk 3 (some 5))).node_id = some "inner" :=
  ⟨rfl, by decide,
    (resolve_error_spec c7Mapping (Diag.mk 3 (some 5))).1 5 rfl (by decide),
    by decide⟩

/-! ## Emitter: variable-name allocation (`cpp_emitter.py`, `sanitize` lines
52-57, `make_var` lines 59-67; `local_make_var` lines 259-267 is the same
algorithm on function-local state)

Python string manipulation is modelled on `List Char`.  `f"{base}_{count}"`
appends an underscore and the decimal digits of the counter. -/

/-- A character matched by the regex class `[0-9a-zA-Z_]` (ASCII). -/
def isWordChar (c : Char) : Bool :=
  c.isDigit || c.isAlpha || c == '_'

/-- `sanitize` (`cpp_emitter.py` lines 52-57): replace non-word characters
with `_`; prefix `_` if the result starts with a digit. -/
def sanitizeChars (s : List Char) : List Char :=
  match s.map (fun c => if isWordChar c then c else '_') with
  | [] => []
  | c :: rest => if c.isDigit then '_' :: c :: rest else c :: rest

def digitChar (n : Nat) : Char :=
  if n = 0 then '0' else if n = 1 then '1' else if n = 2 then '2' else if n = 3 then '3'
  else if n = 4 then '4' else if n = 5 then '5' else if n = 6 then '6'
  else if n = 7 then '7' else if n = 8 then '8' else '9'

/-- Decimal digits of `n`, most significant first, via a fuel-bounded
helper (`natRepr n` uses fuel `n`, always sufficient). -/
def natReprAux : Nat → Nat → List Char
  | 0, n => [digitChar (n % 10)]
  | fuel + 1, n => if n < 10 then [digitChar n] else natReprAux fuel (n / 10) ++ [digitChar (n % 10)]

/-- The decimal representation of a natural number — what Python's
`f"{count}"` interpolates (counts are never negative). -/
def natRepr (n : Nat) : List Char :=
  natReprAux n n

/-- `'v_' + sanitize(node_id)`. -/
def make_var_base (nid : List Char) : List Char :=
  'v' :: '_' :: sanitizeChars nid

/-- One `make_var` call (`cpp_emitter.py` lines 59-67) against the
`_used_names` counter table: first use returns the bare base and stores 1;
later uses return `base_N` (N = previous count) and bump the count. -/
def make_var_step (used : List (List Char × Nat)) (base : List Char) :
    List (List Char × Nat) × List Char :=
  let count := (lookupA used base).getD 0
  if count = 0 then (setA used base 1, base)
  else (setA used base (count + 1), base ++ '_' :: natRepr count)

/-- Run the allocator over a list of node ids in one scope, returning the
allocated names in order. -/
def make_var_run_aux (used : List (List Char × Nat)) : List (List Char) → List (List Char)
  | [] => []
  | nid :: rest =>
    let r := make_var_step used (make_var_base nid)
    r.2 :: make_var_run_aux r.1 rest

def make_var_run (ids : List (List Char)) : List (List Char) :=
  make_var_run_aux [] ids

/-- Three distinct node ids on which the allocator collides: `"b."` and
`"b!"` both sanitize to base `v_b_`, so the second gets `v_b__1`; but
`"b__1"` sanitizes to base `v_b__1`, handed out bare. -/
def c9Ids : List (List Char) :=
  [['b', '.'], ['b', '!'], ['b', '_', '_', '1']]

/-- Claim C9 as stated is false: with distinct node ids `"b."`, `"b!"`,
`"b__1"` the allocator emits the name `v_b__1` twice in one scope. -/
theorem make_var_run_collision :
    c9Ids.Nodup
    ∧ make_var_run c9Ids
        = [['v', '_', 'b', '_'], ['v', '_', 'b', '_', '_', '1'], ['v', '_', 'b', '_', '_', '1']]
    ∧ ¬ (make_var_run c9Ids).Nodup := by
  refine ⟨by decide, by decide, by decide⟩

theorem lookupA_replace {κ β : Type} [DecidableEq κ] (k : κ) (v : β) :
    ∀ m : List (κ × β), (lookupA m k).isSome →
      lookupA (m.map (fun p => if p.1 = k then (k, v) else p)) k = some v := by
  intro m
  induction m with
  | nil => intro h; simp [lookupA] at h
  | cons p rest ih =>
    intro h
    cases p with
    | mk a b =>
      by_cases hk : a = k
      · subst hk
        have hmap : (if ((a, b) : κ × β).1 = a then (a, v) else (a, b)) = (a, v) := by
          simp
        rw [List.map_cons, hmap]
        simp [lookupA]
      · have hmap : (if ((a, b) : κ × β).1 = k then (k, v) else (a, b)) = (a, b) := by
          simp [hk]
        rw [List.map_cons, hmap]
        simp only [lookupA] at h ⊢
        rw [if_neg hk] at h ⊢
        exact ih h

theorem lookupA_replace_ne {κ β : Type} [DecidableEq κ] (k : κ) (v : β) (x : κ) (hx : x ≠ k) :
    ∀ m : List (κ × β),
      lookupA (m.map (fun p => if p.1 = k then (k, v) else p)) x = lookupA m x := by
  intro m
  induction m with
  | nil => rfl
  | cons p rest ih =>
    cases p with
    | mk a b =>
      by_cases hk : a = k
      · subst hk
        have hmap : (if ((a, b) : κ × β).1 = a then (a, v) else (a, b)) = (a, v) := by
          simp
        rw [List.map_cons, hmap]
        simp only [lookupA]
        rw [if_neg (fun h => hx h.symm), if_neg (fun h => hx h.symm)]
        exact ih
      · have hmap : (if ((a, b) : κ × β).1 = k then (k, v) else (a, b)) = (a, b) := by
          simp [hk]
        rw [List.map_cons, hmap]
        simp only [lookupA]
        by_cases hax : a = x
        · rw [if_pos hax, if_pos hax]
        · rw [if_neg hax, if_neg hax]
          exact ih

theorem lookupA_append {κ β : Type} [DecidableEq κ] (m1 m2 : List (κ × β)) (k : κ) :
    lookupA (m1 ++ m2) k = ((lookupA m1 k).or (lookupA m2 k)) := by
  induction m1 with
  | nil => simp [lookupA]
  | cons p rest ih =>
    cases p with
    | mk a b =>
      simp only [List.cons_append, lookupA]
      by_cases hak : a = k
      · rw [if_pos hak, if_pos hak]
        rfl
      · rw [if_neg hak, if_neg hak]
        exact ih

theorem lookupA_setA_self {κ β : Type} [DecidableEq κ] (m : List (κ × β)) (k : κ) (v : β) :
    lookupA (setA m k v) k = some v := by
  unfold setA
  by_cases h : (lookupA m k).isSome
  · rw [if_pos h]
    exact lookupA_replace k v m h
  · rw [if_neg h, lookupA_append]
    rw [Option.not_isSome_iff_eq_none] at h
    rw [h]
    simp [lookupA]

theorem lookupA_setA_ne {κ β : Type} [DecidableEq κ] (m : List (κ × β)) (k : κ) (v : β)
    (x : κ) (hx : x ≠ k) : lookupA (setA m k v) x = lookupA m x := by
  unfold setA
  by_cases h : (lookupA m k).isSome
  · rw [if_pos h]
    exact lookupA_replace_ne k v x hx m
  · rw [if_neg h, lookupA_append]
    have : lookupA [(k, v)] x = none := by
      simp only [lookupA]
      rw [if_neg (fun hkx => hx hkx.symm)]
    rw [this]
    cases lookupA m x <;> rfl

def digitVal (c : Char) : Nat := c.toNat - 48

/-- Decimal value of a digit list, most significant first. -/
def ofDigits (l : List Char) : Nat :=
  l.foldl (fun a c => 10 * a + digitVal c) 0

theorem digitVal_digitChar (n : Nat) (h : n < 10) : digitVal (digitChar n) = n := by
  interval_cases n <;> rfl

theorem isDigit_digitChar (n : Nat) (h : n < 10) : (digitChar n).isDigit = true := by
  interval_cases n <;> rfl

theorem ofDigits_append_singleton (l : List Char) (c : Char) :
    ofDigits (l ++ [c]) = 10 * ofDigits l + digitVal c := by
  simp [ofDigits, List.foldl_append]

theorem natReprAux_val : ∀ (fuel n : Nat), n ≤ fuel → ofDigits (natReprAux fuel n) = n := by
  intro fuel
  induction fuel with
  | zero =>
    intro n hn
    have : n = 0 := Nat.le_zero.mp hn
    subst this
    simp [natReprAux, ofDigits, digitVal_digitChar]
  | succ fuel ih =>
    intro n hn
    by_cases h : n < 10
    · simp only [natReprAux, if_pos h]
      simp [ofDigits, digitVal_digitChar n h]
    · simp only [natReprAux, if_neg h]
      rw [ofDigits_append_singleton, ih (n / 10) (by omega), digitVal_digitChar _ (by omega)]
      omega

theorem natRepr_val (n : Nat) : ofDigits (natRepr n) = n :=
  natReprAux_val n n le_rfl

theorem natRepr_inj (m n : Nat) (h : natRepr m = natRepr n) : m = n := by
  rw [← natRepr_val m, ← natRepr_val n, h]

theorem natReprAux_digits : ∀ (fuel n : Nat), (natReprAux fuel n).all Char.isDigit = true := by
  intro fuel
  induction fuel with
  | zero => intro n; simp [natReprAux, isDigit_digitChar (n % 10) (by omega)]
  | succ fuel ih =>
    intro n
    by_cases h : n < 10
    · simp [natReprAux, if_pos h, isDigit_digitChar n h]
    · simp only [natReprAux, if_neg h, List.all_append]
      simp [ih (n / 10), isDigit_digitChar (n % 10) (by omega)]

theorem natRepr_digits (n : Nat) : (natRepr n).all Char.isDigit = true :=
  natReprAux_digits n n

theorem natReprAux_ne_nil : ∀ (fuel n : Nat), natReprAux fuel n ≠ [] := by
  intro fuel n
  cases fuel with
  | zero => simp [natReprAux]
  | succ fuel =>
    by_cases h : n < 10 <;> simp [natReprAux, h]

theorem natRepr_ne_nil (n : Nat) : natRepr n ≠ [] :=
  natReprAux_ne_nil n n

/-- The name handed out for base `b` at per-base use count `c`. -/
def mkNameC (b : List Char) (c : Nat) : List Char :=
  if c = 0 then b else b ++ '_' :: natRepr c

/-- Reference formulation of the allocator: the name of each base is
determined by how often the base occurred before it. -/
def specRun (prev : List (List Char)) : List (List Char) → List (List Char)
  | [] => []
  | b :: bs => mkNameC b (prev.count b) :: specRun (prev ++ [b]) bs

theorem make_var_run_aux_spec :
    ∀ (ids : List (List Char)) (used : List (List Char × Nat)) (prev : List (List Char)),
      (∀ b, (lookupA used b).getD 0 = prev.count b) →
      make_var_run_aux used ids = specRun prev (ids.map make_var_base) := by
  intro ids
  induction ids with
  | nil => intros; rfl
  | cons nid rest ih =>
    intro used prev hinv
    simp only [make_var_run_aux, List.map_cons, specRun]
    have hc : (lookupA used (make_var_base nid)).getD 0 = prev.count (make_var_base nid) :=
      hinv (make_var_base nid)
    unfold make_var_step
    by_cases h0 : prev.count (make_var_base nid) = 0
    · rw [hc, if_pos h0]
      simp only [mkNameC, if_pos h0]
      refine congrArg _ ?_
      apply ih
      intro b
      by_cases hb : b = make_var_base nid
      · subst hb
        rw [lookupA_setA_self]
        simp [List.count_append, h0]
      · rw [lookupA_setA_ne _ _ _ _ hb, hinv b]
        simp only [List.count_append]
        have : List.count b [make_var_base nid] = 0 := by
          rw [List.count_eq_zero]
          simp [hb]
        omega
    · rw [hc, if_neg h0]
      simp only [mkNameC, if_neg h0]
      refine congrArg _ ?_
      apply ih
      intro b
      by_cases hb : b = make_var_base nid
      · subst hb
        rw [lookupA_setA_self]
        simp [List.count_append]
      · rw [lookupA_setA_ne _ _ _ _ hb, hinv b]
        simp only [List.count_append]
        have : List.count b [make_var_base nid] = 0 := by
          rw [List.count_eq_zero]
          simp [hb]
        omega

theorem mem_specRun :
    ∀ (bs prev : List (List Char)) (x : List Char), x ∈ specRun prev bs →
      ∃ b' c', b' ∈ bs ∧ prev.count b' ≤ c' ∧ x = mkNameC b' c' := by
  intro bs
  induction bs with
  | nil => intro prev x hx; simp [specRun] at hx
  | cons b bs ih =>
    intro prev x hx
    rcases List.mem_cons.mp hx with rfl | hx
    · exact ⟨b, prev.count b, List.mem_cons_self _ _, le_rfl, rfl⟩
    · rcases ih (prev ++ [b]) x hx with ⟨b', c', hb', hle, rfl⟩
      refine ⟨b', c', List.mem_cons_of_mem _ hb', ?_, rfl⟩
      have : prev.count b' ≤ (prev ++ [b]).count b' := by
        simp [List.count_append]
      omega

theorem append_cons_eq_split {α : Type} (a : α) :
    ∀ (l1 l2 t1 t2 : List α), l1 ++ a :: t1 = l2 ++ a :: t2 → l1.length < l2.length →
      ∃ u, l2 = l1 ++ a :: u ∧ t1 = u ++ a :: t2 := by
  intro l1
  induction l1 with
  | nil =>
    intro l2 t1 t2 h hlen
    cases l2 with
    | nil => simp at hlen
    | cons x l2' =>
      simp only [List.nil_append, List.cons_append] at h
      injection h with h1 h2
      subst h1
      exact ⟨l2', by simp, h2⟩
  | cons c l1' ih =>
    intro l2 t1 t2 h hlen
    cases l2 with
    | nil => simp at hlen
    | cons x l2' =>
      simp only [List.cons_append] at h
      injection h with h1 h2
      subst h1
      rcases ih l2' t1 t2 h2 (by simpa using hlen) with ⟨u, hu1, hu2⟩
      exact ⟨u, by simp [hu1], hu2⟩

theorem underscore_not_digit : ('_').isDigit = false := rfl

theorem mkNameC_ne (b b' : List Char) (c c' : Nat)
    (hbb : b = b' → c < c')
    (h1 : ¬ ∃ d, d ≠ [] ∧ d.all Char.isDigit = true ∧ b = b' ++ '_' :: d)
    (h2 : ¬ ∃ d, d ≠ [] ∧ d.all Char.isDigit = true ∧ b' = b ++ '_' :: d) :
    mkNameC b c ≠ mkNameC b' c' := by
  unfold mkNameC
  by_cases hc : c = 0 <;> by_cases hc' : c' = 0
  · rw [if_pos hc, if_pos hc']
    intro heq
    subst heq
    exact absurd (hbb rfl) (by omega)
  · rw [if_pos hc, if_neg hc']
    intro heq
    exact h1 ⟨natRepr c', natRepr_ne_nil c', natRepr_digits c', heq⟩
  · rw [if_neg hc, if_pos hc']
    intro heq
    exact h2 ⟨natRepr c, natRepr_ne_nil c, natRepr_digits c, heq.symm⟩
  · rw [if_neg hc, if_neg hc']
    intro heq
    rcases Nat.lt_trichotomy b.length b'.length with hl | hl | hl
    · rcases append_cons_eq_split '_' b b' (natRepr c) (natRepr c') heq hl with ⟨u, _, hu2⟩
      have : ('_') ∈ natRepr c := by
        rw [hu2]
        exact List.mem_append_right u (List.mem_cons_self _ _)
      have hd := natRepr_digits c
      rw [List.all_eq_true] at hd
      have := hd _ this
      simp [underscore_not_digit] at this
    · rcases List.append_inj heq hl with ⟨hb, ht⟩
      injection ht with _ ht2
      have hcc : c = c' := natRepr_inj _ _ ht2
      have := hbb hb
      omega
    · rcases append_cons_eq_split '_' b' b (natRepr c') (natRepr c) heq.symm hl with ⟨u, _, hu2⟩
      have : ('_') ∈ natRepr c' := by
        rw [hu2]
        exact List.mem_append_right u (List.mem_cons_self _ _)
      have hd := natRepr_digits c'
      rw [List.all_eq_true] at hd
      have := hd _ this
      simp [underscore_not_digit] at this

theorem specRun_nodup :
    ∀ (bs : List (List Char)),
      (∀ x ∈ bs, ∀ y ∈ bs, ¬ ∃ d, d ≠ [] ∧ d.all Char.isDigit = true ∧ y = x ++ '_' :: d) →
      ∀ prev : List (List Char), (specRun prev bs).Nodup := by
  intro bs
  induction bs with
  | nil => intro _ prev; simp [specRun]
  | cons b bs ih =>
    intro H prev
    simp only [specRun, List.nodup_cons]
    constructor
    · intro hmem
      rcases mem_specRun bs (prev ++ [b]) _ hmem with ⟨b', c', hb', hle, heq⟩
      have hcnt : (prev ++ [b]).count b' ≤ c' := hle
      refine mkNameC_ne b b' (prev.count b) c' ?_ ?_ ?_ heq
      · intro hbb
        subst hbb
        have : (prev ++ [b]).count b = prev.count b + 1 := by
          simp [List.count_append]
        omega
      · exact H b' (List.mem_cons_of_mem _ hb') b (List.mem_cons_self _ _)
      · exact H b (List.mem_cons_self _ _) b' (List.mem_cons_of_mem _ hb')
    · exact ih (fun x hx y hy =>
        H x (List.mem_cons_of_mem _ hx) y (List.mem_cons_of_mem _ hy)) (prev ++ [b])

/-- Decidable test: `c` is `b` followed by `_` and a non-empty run of
decimal digits — the only way a bare base can collide with a
counter-suffixed name. -/
def hasCounterSuffix (b c : List Char) : Bool :=
  (c.take (b.length + 1) == b ++ ['_'])
    && !(c.drop (b.length + 1)).isEmpty
    && (c.drop (b.length + 1)).all Char.isDigit

theorem hasCounterSuffix_iff (b c : List Char) :
    hasCounterSuffix b c = true
      ↔ ∃ d, d ≠ [] ∧ d.all Char.isDigit = true ∧ c = b ++ '_' :: d := by
  unfold hasCounterSuffix
  constructor
  · intro h
    simp only [Bool.and_eq_true, beq_iff_eq, Bool.not_eq_true'] at h
    obtain ⟨⟨htake, hne⟩, hdig⟩ := h
    refine ⟨c.drop (b.length + 1), ?_, hdig, ?_⟩
    · intro hnil
      rw [hnil] at hne
      simp at hne
    · conv_lhs => rw [← List.take_append_drop (b.length + 1) c]
      rw [htake]
      simp
  · rintro ⟨d, hdne, hdig, rfl⟩
    have htake : (b ++ '_' :: d).take (b.length + 1) = b ++ ['_'] := by
      rw [List.take_append_eq_append_take]
      simp
    have hdrop : (b ++ '_' :: d).drop (b.length + 1) = d := by
      rw [List.drop_append_eq_append_drop]
      simp
    simp [htake, hdrop, hdne, hdig]

/-- Claim C9 (corrected, amended): within one emission scope the allocator
(`make_var` / `local_make_var`) never hands out the same left-hand name
twice, provided no node's sanitized base equals another's base followed by
an underscore and a run of decimal digits.  Without that proviso the claim
fails — see the counterexample with ids `"b."`, `"b!"`, `"b__1"`. -/
theorem make_var_run_nodup (ids : List (List Char))
    (H : ∀ b ∈ ids.map make_var_base, ∀ c ∈ ids.map make_var_base,
        hasCounterSuffix b c = false) :
    (make_var_run ids).Nodup := by
  have hrun : make_var_run ids = specRun [] (ids.map make_var_base) := by
    apply make_var_run_aux_spec
    intro b
    simp [lookupA]
  rw [hrun]
  apply specRun_nodup
  intro x hx y hy hex
  have := (hasCounterSuffix_iff x y).mpr hex
  rw [H x hx y hy] at this
  cases this

def c9WitnessIds : List (List Char) := [['x'], ['x'], ['y']]

theorem make_var_run_nodup_witness :
    (∀ b ∈ c9WitnessIds.map make_var_base, ∀ c ∈ c9WitnessIds.map make_var_base,
        hasCounterSuffix b c = false)
    ∧ (make_var_run c9WitnessIds).Nodup :=
  ⟨by decide, make_var_run_nodup c9WitnessIds (by decide)⟩

/-! ## Topological sort (`validator.py`, `build_adj` lines 9-33,
`topological_sort` lines 36-51)

`build_adj` derives the dependency pairs from `edges` when non-empty, else
from each node's positional `inputs`; Kahn's algorithm then pops a
FIFO queue of zero-in-degree nodes (`q.pop(0)` / `q.append`), decrementing
successors in adjacency order.  In-degrees live in a Python `int` dict,
modelled as a function `String → Int`. -/

structure TNode where
  id : String
  inputs : List String := []
deriving DecidableEq, Inhabited

structure TEdge where
  src : String
  dst : String
deriving DecidableEq, Inhabited

inductive GErr where
  | unknownNode (node : String)
  | cycle
deriving DecidableEq

/-- The dependency pairs `(from, to)` the adjacency is built from. -/
def buildPairs (nodes : List TNode) (edges : List TEdge) : List (String × String) :=
  if edges ≠ [] then edges.map (fun e => (e.src, e.dst))
  else nodes.flatMap (fun n => n.inputs.map (fun i => (i, n.id)))

/-- `adj[n]` — successors of `n` with multiplicity, in pair order. -/
def succsOf (pairs : List (String × String)) (x : String) : List String :=
  (pairs.filter (fun p => p.1 == x)).map (·.2)

/-- Initial in-degree of `x` (number of pairs into `x`). -/
def inDeg (pairs : List (String × String)) (x : String) : Int :=
  ((pairs.filter (fun p => p.2 == x)).length : Int)

/-- Processing one successor `m`: decrement its count, enqueue it when the
count reaches exactly zero. -/
def decStep (st : (String → Int) × List String) (m : String) : (String → Int) × List String :=
  let d := st.1 m - 1
  (fun x => if x = m then d else st.1 x, if d = 0 then st.2 ++ [m] else st.2)

/-- Kahn's main loop.  The fuel bound `|uids|` dominates the number of pops
(each pop appends a fresh id to `order`), so the loop always drains the
queue before the fuel runs out; the fuel-0 case is unreachable. -/
def kahnRun (pairs : List (String × String)) :
    Nat → (String → Int) → List String → List String → List String
  | 0, _, _, order => order
  | fuel + 1, indeg, q, order =>
    match q with
    | [] => order
    | n :: rest =>
      let st := (succsOf pairs n).foldl decStep (indeg, rest)
      kahnRun pairs fuel st.1 st.2 (order ++ [n])

/-- `id_to_node[i]` — Python's dict comprehension keeps the last node with a
given id. -/
def idToNodeT (nodes : List TNode) (i : String) : Option TNode :=
  (nodes.reverse).find? (fun n => n.id == i)

/-- Embedding of `topological_sort` (`validator.py` lines 36-51): check the
pair endpoints (first offender raised as `UnknownNode`), run Kahn's
algorithm from the zero-in-degree queue in node order, and fail with
`Cycle` when fewer ids emerge than nodes were input.  The id-to-node lookup
of the final comprehension always succeeds, so the `filterMap` drops
nothing. -/
def topological_sort (nodes : List TNode) (edges : List TEdge) : Except GErr (List TNode) :=
  let pairs := buildPairs nodes edges
  let ids := nodes.map (·.id)
  match pairs.find? (fun p => !(ids.contains p.1) || !(ids.contains p.2)) with
  | some p => .error (.unknownNode (if ids.contains p.1 then p.2 else p.1))
  | none =>
    let uids := pdedup ids
    let q0 := uids.filter (fun x => inDeg pairs x == 0)
    let orderIds := kahnRun pairs uids.length (fun x => inDeg pairs x) q0 []
    if orderIds.length = nodes.length then
      .ok (orderIds.filterMap (idToNodeT nodes))
    else .error .cycle

/-- Pairs into `x` whose source has already been popped. -/
def popCnt (pairs : List (String × String)) (order : List String) (x : String) : Nat :=
  (pairs.filter (fun p => p.2 == x && decide (p.1 ∈ order))).length

/-- Loop invariant of Kahn's algorithm relative to the popped `order` and
the pending queue `q`. -/
structure KState (pairs : List (String × String)) (uids : List String)
    (indeg : String → Int) (q order : List String) : Prop where
  nodup : (order ++ q).Nodup
  subs : ∀ x ∈ order ++ q, x ∈ uids
  deg : ∀ x, indeg x = inDeg pairs x - (popCnt pairs order x : Int)
  pushed : ∀ x ∈ uids, ((x ∈ order ∨ x ∈ q) ↔ ∀ p ∈ pairs, p.2 = x → p.1 ∈ order)
  edgeOrd : ∀ p ∈ pairs, p.2 ∈ order → ∃ l1 l2, order = l1 ++ p.2 :: l2 ∧ p.1 ∈ l1

theorem length_filter_split {α : Type} (l : List α) (p q : α → Bool) :
    (l.filter p).length
      = (l.filter (fun a => p a && q a)).length + (l.filter (fun a => p a && !q a)).length := by
  induction l with
  | nil => rfl
  | cons a l ih =>
    by_cases hp : p a = true <;> by_cases hq : q a = true <;>
      simp [List.filter_cons, hp, hq, ih] <;> omega

theorem length_filter_mono {α : Type} (l : List α) (p q : α → Bool)
    (h : ∀ a ∈ l, p a = true → q a = true) :
    (l.filter p).length ≤ (l.filter q).length := by
  induction l with
  | nil => exact le_rfl
  | cons a l ih =>
    have ih2 := ih (fun a ha => h a (List.mem_cons_of_mem _ ha))
    by_cases hp : p a = true
    · have hq := h a (List.mem_cons_self _ _) hp
      simp [List.filter_cons, hp, hq]
      omega
    · simp only [List.filter_cons]
      rw [if_neg hp]
      by_cases hq : q a = true
      · rw [if_pos hq]
        simp only [List.length_cons]
        omega
      · rw [if_neg hq]
        exact ih2

theorem length_filter_lt {α : Type} (l : List α) (p q : α → Bool)
    (h : ∀ a ∈ l, p a = true → q a = true)
    (a : α) (ha : a ∈ l) (hq : q a = true) (hp : p a = false) :
    (l.filter p).length < (l.filter q).length := by
  induction l with
  | nil => cases ha
  | cons b l ih =>
    have hmono := length_filter_mono l p q (fun x hx => h x (List.mem_cons_of_mem _ hx))
    rcases List.mem_cons.mp ha with heq | ha2
    · subst heq
      have h1 : (a :: l).filter p = l.filter p := by simp [List.filter_cons, hp]
      have h2 : (a :: l).filter q = a :: l.filter q := by simp [List.filter_cons, hq]
      rw [h1, h2, List.length_cons]
      omega
    · have ihx := ih (fun x hx hpx => h x (List.mem_cons_of_mem _ hx) hpx) ha2
      by_cases hpb : p b = true
      · have hqb := h b (List.mem_cons_self _ _) hpb
        simp [List.filter_cons, hpb, hqb]
        omega
      · simp only [List.filter_cons]
        rw [if_neg hpb]
        by_cases hqb : q b = true
        · rw [if_pos hqb]
          simp only [List.length_cons]
          omega
        · rw [if_neg hqb]
          exact ihx

theorem count_succsOf (pairs : List (String × String)) (n x : String) :
    (succsOf pairs n).count x = (pairs.filter (fun p => p.1 == n && p.2 == x)).length := by
  unfold succsOf
  induction pairs with
  | nil => rfl
  | cons p rest ih =>
    by_cases h1 : p.1 = n
    · by_cases h2 : p.2 = x
      · simp [List.filter_cons, h1, h2, List.count_cons, ih]
      · have : (p.2 == x) = false := by simp [h2]
        simp [List.filter_cons, h1, this, List.count_cons, ih, h2]
    · have : (p.1 == n) = false := by simp [h1]
      simp [List.filter_cons, this, ih]

theorem foldl_decStep_fst (sl : List String) :
    ∀ (indeg : String → Int) (q : List String) (x : String),
      ((sl.foldl decStep (indeg, q)).1) x = indeg x - (sl.count x : Int) := by
  induction sl with
  | nil => intro indeg q x; simp
  | cons m sl ih =>
    intro indeg q x
    rw [List.foldl_cons]
    have hpair : decStep (indeg, q) m
        = (fun y => if y = m then indeg m - 1 else indeg y,
           if indeg m - 1 = 0 then q ++ [m] else q) := rfl
    rw [hpair, ih]
    by_cases hx : x = m
    · subst hx
      rw [if_pos rfl, List.count_cons_self]
      push_cast
      omega
    · rw [if_neg hx]
      have : (m :: sl).count x = sl.count x := by
        rw [List.count_cons]
        simp [Ne.symm hx]
      rw [this]

theorem foldl_decStep_snd (sl : List String) :
    ∀ (indeg : String → Int) (q : List String),
      ∃ newq : List String,
        (sl.foldl decStep (indeg, q)).2 = q ++ newq
        ∧ newq.Nodup
        ∧ (∀ m, m ∈ newq ↔ (1 ≤ indeg m ∧ indeg m ≤ (sl.count m : Int))) := by
  induction sl with
  | nil =>
    intro indeg q
    refine ⟨[], by simp, List.nodup_nil, ?_⟩
    intro m
    simp only [List.not_mem_nil, false_iff, List.count_nil, Nat.cast_zero]
    rintro ⟨h1, h2⟩
    omega
  | cons m0 sl ih =>
    intro indeg q
    rw [List.foldl_cons]
    have hpair : decStep (indeg, q) m0
        = (fun y => if y = m0 then indeg m0 - 1 else indeg y,
           if indeg m0 - 1 = 0 then q ++ [m0] else q) := rfl
    rw [hpair]
    by_cases hd : indeg m0 - 1 = 0
    · rw [if_pos hd]
      obtain ⟨newq', he, hnd, hmem⟩ :=
        ih (fun y => if y = m0 then indeg m0 - 1 else indeg y) (q ++ [m0])
      refine ⟨m0 :: newq', ?_, ?_, ?_⟩
      · rw [he, List.append_assoc]
        rfl
      · refine List.nodup_cons.mpr ⟨?_, hnd⟩
        intro hmm
        have := (hmem m0).mp hmm
        rw [if_pos rfl] at this
        omega
      · intro x
        by_cases hx : x = m0
        · subst hx
          simp only [List.mem_cons, true_or, true_iff]
          rw [List.count_cons_self]
          push_cast
          omega
        · simp only [List.mem_cons, hx, false_or]
          rw [hmem x, if_neg hx]
          have : (m0 :: sl).count x = sl.count x := by
            rw [List.count_cons]
            simp [Ne.symm hx]
          rw [this]
    · rw [if_neg hd]
      obtain ⟨newq', he, hnd, hmem⟩ :=
        ih (fun y => if y = m0 then indeg m0 - 1 else indeg y) q
      refine ⟨newq', he, hnd, ?_⟩
      intro x
      by_cases hx : x = m0
      · subst hx
        rw [hmem x, if_pos rfl, List.count_cons_self]
        push_cast
        constructor
        · rintro ⟨h1, h2⟩; exact ⟨by omega, by omega⟩
        · rintro ⟨h1, h2⟩; exact ⟨by omega, by omega⟩
      · rw [hmem x, if_neg hx]
        have : (m0 :: sl).count x = sl.count x := by
          rw [List.count_cons]
          simp [Ne.symm hx]
        rw [this]

theorem popCnt_append_singleton (pairs : List (String × String)) (order : List String)
    (n x : String) (hn : n ∉ order) :
    popCnt pairs (order ++ [n]) x
      = popCnt pairs order x + (succsOf pairs n).count x := by
  rw [count_succsOf]
  unfold popCnt
  rw [length_filter_split pairs (fun p => p.2 == x && decide (p.1 ∈ order ++ [n]))
      (fun p => decide (p.1 ∈ order))]
  congr 1
  · apply congrArg List.length
    apply List.filter_congr
    intro p _
    by_cases h2 : p.2 = x <;> by_cases ho : p.1 ∈ order <;>
      simp [h2, ho, List.mem_append]
  · apply congrArg List.length
    apply List.filter_congr
    intro p _
    by_cases h1 : p.1 = n
    · have ho : p.1 ∉ order := by rw [h1]; exact hn
      by_cases h2 : p.2 = x <;> simp [h1, h2, ho, hn, List.mem_append]
    · by_cases h2 : p.2 = x <;> by_cases ho : p.1 ∈ order <;>
        simp [h1, h2, ho, List.mem_append]

theorem inDeg_sub_popCnt (pairs : List (String × String)) (order : List String) (x : String) :
    inDeg pairs x - (popCnt pairs order x : Int)
      = ((pairs.filter (fun p => p.2 == x && !decide (p.1 ∈ order))).length : Int) := by
  unfold inDeg popCnt
  rw [length_filter_split pairs (fun p => p.2 == x) (fun p => decide (p.1 ∈ order))]
  push_cast
  ring

theorem kahn_step (pairs : List (String × String)) (uids : List String)
    (hval : ∀ p ∈ pairs, p.1 ∈ uids ∧ p.2 ∈ uids)
    (indeg : String → Int) (n : String) (rest order : List String)
    (hst : KState pairs uids indeg (n :: rest) order) :
    KState pairs uids
      ((succsOf pairs n).foldl decStep (indeg, rest)).1
      ((succsOf pairs n).foldl decStep (indeg, rest)).2
      (order ++ [n]) := by
  have hnO : n ∉ order := by
    have h := hst.nodup
    rw [List.nodup_append] at h
    exact fun hn => h.2.2 hn (List.mem_cons_self _ _)
  obtain ⟨newq, hq2, hnewnd, hnewmem⟩ := foldl_decStep_snd (succsOf pairs n) indeg rest
  have hfst := foldl_decStep_fst (succsOf pairs n) indeg rest
  have hpair_of_count : ∀ m, 1 ≤ ((succsOf pairs n).count m : Int) →
      ∃ p ∈ pairs, p.1 = n ∧ p.2 = m := by
    intro m hc
    have hc2 : 1 ≤ (succsOf pairs n).count m := by exact_mod_cast hc
    have hmem : m ∈ succsOf pairs n := List.one_le_count_iff.mp hc2
    unfold succsOf at hmem
    rcases List.mem_map.mp hmem with ⟨p, hpf, hp2⟩
    rcases List.mem_filter.mp hpf with ⟨hpp, hp1⟩
    exact ⟨p, hpp, by simpa using hp1, hp2⟩
  have hfresh : ∀ m, (∃ p ∈ pairs, p.1 = n ∧ p.2 = m) → m ∉ order ++ n :: rest := by
    intro m hex hmm
    rcases hex with ⟨p, hpp, h1, h2⟩
    have hmu : m ∈ uids := h2 ▸ (hval p hpp).2
    have hsrc := (hst.pushed m hmu).mp (by
      rcases List.mem_append.mp hmm with h | h
      · exact Or.inl h
      · exact Or.inr h)
    have := hsrc p hpp h2
    rw [h1] at this
    exact hnO this
  have hfreshq : ∀ m ∈ newq, m ∉ order ++ n :: rest := by
    intro m hm
    have h := (hnewmem m).mp hm
    exact hfresh m (hpair_of_count m (le_trans h.1 h.2))
  have hnewuids : ∀ m ∈ newq, m ∈ uids := by
    intro m hm
    have h := (hnewmem m).mp hm
    rcases hpair_of_count m (le_trans h.1 h.2) with ⟨p, hpp, _, h2⟩
    exact h2 ▸ (hval p hpp).2
  rw [hq2]
  refine ⟨?_, ?_, ?_, ?_, ?_⟩
  · -- nodup
    have hbase : ((order ++ [n]) ++ rest).Nodup := by
      simp only [List.append_assoc, List.singleton_append]
      exact hst.nodup
    have hassoc : (order ++ [n]) ++ (rest ++ newq) = ((order ++ [n]) ++ rest) ++ newq := by
      simp [List.append_assoc]
    rw [hassoc, List.nodup_append]
    refine ⟨hbase, hnewnd, ?_⟩
    intro a ha hanew
    have h1 := hfreshq a hanew
    apply h1
    have : a ∈ order ++ ([n] ++ rest) := by simpa [List.append_assoc] using ha
    simpa using this
  · -- subs
    intro x hx
    rcases List.mem_append.mp hx with h | h
    · rcases List.mem_append.mp h with h2 | h2
      · exact hst.subs x (List.mem_append_left _ h2)
      · have : x = n := by simpa using h2
        subst this
        exact hst.subs x (List.mem_append_right _ (List.mem_cons_self _ _))
    · rcases List.mem_append.mp h with h2 | h2
      · exact hst.subs x (List.mem_append_right _ (List.mem_cons_of_mem _ h2))
      · exact hnewuids x h2
  · -- deg
    intro x
    rw [hfst x, hst.deg x, popCnt_append_singleton pairs order n x hnO]
    push_cast
    ring
  · -- pushed
    intro x hxu
    constructor
    · intro hmem
      rcases hmem with h | h
      · rcases List.mem_append.mp h with h2 | h2
        · intro p hpp hp2
          exact List.mem_append_left _ ((hst.pushed x hxu).mp (Or.inl h2) p hpp hp2)
        · have hxn : x = n := by simpa using h2
          subst hxn
          intro p hpp hp2
          exact List.mem_append_left _
            ((hst.pushed x hxu).mp (Or.inr (List.mem_cons_self _ _)) p hpp hp2)
      · rcases List.mem_append.mp h with h2 | h2
        · intro p hpp hp2
          exact List.mem_append_left _
            ((hst.pushed x hxu).mp (Or.inr (List.mem_cons_of_mem _ h2)) p hpp hp2)
        · -- x freshly enqueued
          intro p hpp hp2
          by_contra hnot
          have hxq := (hnewmem x).mp h2
          have hio : indeg x
              = ((pairs.filter (fun q => q.2 == x && !decide (q.1 ∈ order))).length : Int) := by
            rw [hst.deg x, inDeg_sub_popCnt]
          have hp1no : p.1 ∉ order := fun hc => hnot (List.mem_append_left _ hc)
          have hp1nn : p.1 ≠ n := fun hc => hnot (List.mem_append_right _ (by simp [hc]))
          have hlt := length_filter_lt pairs
            (fun q => q.1 == n && q.2 == x)
            (fun q => q.2 == x && !decide (q.1 ∈ order))
            (by
              intro q hq hb
              simp only [Bool.and_eq_true, beq_iff_eq] at hb
              simp only [Bool.and_eq_true, beq_iff_eq, Bool.not_eq_true', decide_eq_false_iff_not]
              exact ⟨hb.2, hb.1 ▸ hnO⟩)
            p hpp
            (by
              simp only [Bool.and_eq_true, beq_iff_eq, Bool.not_eq_true', decide_eq_false_iff_not]
              exact ⟨hp2, hp1no⟩)
            (by
              simp only [Bool.and_eq_true, beq_iff_eq]
              simp [hp1nn])
          have hle := hxq.2
          rw [count_succsOf] at hle
          rw [hio] at hxq
          omega
    · intro hall
      by_cases hallo : ∀ p ∈ pairs, p.2 = x → p.1 ∈ order
      · have := (hst.pushed x hxu).mpr hallo
        rcases this with h | h
        · exact Or.inl (List.mem_append_left _ h)
        · rcases List.mem_cons.mp h with heq | h2
          · subst heq
            exact Or.inl (List.mem_append_right _ (by simp))
          · exact Or.inr (List.mem_append_left _ h2)
      · push_neg at hallo
        rcases hallo with ⟨p1, hp1, hp12, hp1o⟩
        have hp1n : p1.1 = n := by
          have := hall p1 hp1 hp12
          rcases List.mem_append.mp this with h | h
          · exact absurd h hp1o
          · simpa using h
        have hio : indeg x
            = ((pairs.filter (fun q => q.2 == x && !decide (q.1 ∈ order))).length : Int) := by
          rw [hst.deg x, inDeg_sub_popCnt]
        have h1 : 1 ≤ indeg x := by
          rw [hio]
          have hmemf : p1 ∈ pairs.filter (fun q => q.2 == x && !decide (q.1 ∈ order)) :=
            List.mem_filter.mpr ⟨hp1, by
              simp only [Bool.and_eq_true, beq_iff_eq, Bool.not_eq_true', decide_eq_false_iff_not]
              exact ⟨hp12, hp1o⟩⟩
          have hpos := List.length_pos.mpr (List.ne_nil_of_mem hmemf)
          omega
        have h2 : indeg x ≤ ((succsOf pairs n).count x : Int) := by
          rw [hio, count_succsOf]
          have hmono := length_filter_mono pairs
            (fun q => q.2 == x && !decide (q.1 ∈ order))
            (fun q => q.1 == n && q.2 == x)
            (by
              intro q hq hb
              simp only [Bool.and_eq_true, beq_iff_eq, Bool.not_eq_true',
                decide_eq_false_iff_not] at hb
              simp only [Bool.and_eq_true, beq_iff_eq]
              have := hall q hq hb.1
              rcases List.mem_append.mp this with h | h
              · exact absurd h hb.2
              · exact ⟨by simpa using h, hb.1⟩)
          omega
        exact Or.inr (List.mem_append_right _ ((hnewmem x).mpr ⟨h1, h2⟩))
  · -- edgeOrd
    intro p hpp hpord
    rcases List.mem_append.mp hpord with h | h
    · rcases hst.edgeOrd p hpp h with ⟨l1, l2, hsplit, hmem⟩
      exact ⟨l1, l2 ++ [n], by rw [hsplit]; simp, hmem⟩
    · have hp2 : p.2 = n := by simpa using h
      have hsrc : p.1 ∈ order := by
        have hnu : n ∈ uids := hst.subs n (by simp)
        exact (hst.pushed n hnu).mp (Or.inr (List.mem_cons_self _ _)) p hpp hp2
      exact ⟨order, [], by rw [hp2], hsrc⟩

theorem nodup_subset_length (l ids : List String) (hnd : l.Nodup) (hsub : ∀ x ∈ l, x ∈ ids) :
    l.length ≤ ids.length := by
  have h1 : l.toFinset.card = l.length := List.toFinset_card_of_nodup hnd
  have h2 : l.toFinset ⊆ ids.toFinset := by
    intro a ha
    exact List.mem_toFinset.mpr (hsub a (List.mem_toFinset.mp ha))
  calc l.length = l.toFinset.card := h1.symm
    _ ≤ ids.toFinset.card := Finset.card_le_card h2
    _ ≤ ids.length := ids.toFinset_card_le

theorem kahnRun_drains (pairs : List (String × String)) (uids : List String)
    (hval : ∀ p ∈ pairs, p.1 ∈ uids ∧ p.2 ∈ uids) :
    ∀ (fuel : Nat) (indeg : String → Int) (q order : List String),
      KState pairs uids indeg q order →
      uids.length ≤ fuel + order.length →
      ∃ indeg2, KState pairs uids indeg2 [] (kahnRun pairs fuel indeg q order) := by
  intro fuel
  induction fuel with
  | zero =>
    intro indeg q order hst hfuel
    have hlen := nodup_subset_length (order ++ q) uids hst.nodup hst.subs
    rw [List.length_append] at hlen
    have hq : q = [] := List.length_eq_zero.mp (by omega)
    subst hq
    exact ⟨indeg, by rw [show kahnRun pairs 0 indeg [] order = order from rfl]; exact hst⟩
  | succ fuel ih =>
    intro indeg q order hst hfuel
    cases q with
    | nil =>
      exact ⟨indeg, by
        rw [show kahnRun pairs (fuel + 1) indeg [] order = order from rfl]
        exact hst⟩
    | cons n rest =>
      have hstep := kahn_step pairs uids hval indeg n rest order hst
      have hrec := ih _ _ _ hstep (by
        rw [List.length_append]
        simp only [List.length_singleton]
        omega)
      rw [show kahnRun pairs (fuel + 1) indeg (n :: rest) order
          = kahnRun pairs fuel ((succsOf pairs n).foldl decStep (indeg, rest)).1
              ((succsOf pairs n).foldl decStep (indeg, rest)).2 (order ++ [n]) from rfl]
      exact hrec

theorem kahn_initial (pairs : List (String × String)) (uids : List String)
    (huid : uids.Nodup) :
    KState pairs uids (fun x => inDeg pairs x)
      (uids.filter (fun x => inDeg pairs x == 0)) [] := by
  refine ⟨?_, ?_, ?_, ?_, ?_⟩
  · simpa using List.Nodup.filter _ huid
  · intro x hx
    simp only [List.nil_append] at hx
    exact (List.mem_filter.mp hx).1
  · intro x
    have hz : popCnt pairs [] x = 0 := by
      unfold popCnt
      simp
    rw [hz]
    simp
  · intro x hxu
    constructor
    · intro h
      rcases h with h | h
      · cases h
      · rcases List.mem_filter.mp h with ⟨_, hz⟩
        intro p hpp hp2
        exfalso
        have hzero : inDeg pairs x = 0 := by simpa using hz
        have hmemf : p ∈ pairs.filter (fun q => q.2 == x) :=
          List.mem_filter.mpr ⟨hpp, by simp [hp2]⟩
        have hpos := List.length_pos.mpr (List.ne_nil_of_mem hmemf)
        unfold inDeg at hzero
        omega
    · intro hall
      right
      apply List.mem_filter.mpr
      refine ⟨hxu, ?_⟩
      have hnil : pairs.filter (fun q => q.2 == x) = [] := by
        rw [List.filter_eq_nil_iff]
        intro a ha hba
        have ha2 : a.2 = x := by simpa using hba
        exact absurd (hall a ha ha2) (List.not_mem_nil _)
      simp [inDeg, hnil]
  · intro p _ h
    cases h

theorem exists_cycle_of_pred (pairs : List (String × String)) (R : List String) (hne : R ≠ [])
    (hpred : ∀ r ∈ R, ∃ s, s ∈ R ∧ (s, r) ∈ pairs) :
    ∃ x, Relation.TransGen (fun a b : String => (a, b) ∈ pairs) x x := by
  classical
  have hex : ∀ t : {r : String // r ∈ R}, ∃ s : {r : String // r ∈ R},
      (s.val, t.val) ∈ pairs := by
    intro t
    rcases hpred t.val t.property with ⟨s, hs, hsp⟩
    exact ⟨⟨s, hs⟩, hsp⟩
  choose f hf using hex
  rcases List.exists_mem_of_ne_nil R hne with ⟨r0, hr0⟩
  set g : Nat → {r : String // r ∈ R} := fun k => f^[k] ⟨r0, hr0⟩ with hg
  have hcard : R.toFinset.card < (Finset.univ : Finset (Fin (R.length + 1))).card := by
    rw [Finset.card_univ, Fintype.card_fin]
    exact Nat.lt_succ_of_le R.toFinset_card_le
  obtain ⟨i, _, j, _, hij, heq⟩ :=
    Finset.exists_ne_map_eq_of_card_lt_of_maps_to hcard
      (fun (a : Fin (R.length + 1)) _ => List.mem_toFinset.mpr (g a.val).property)
  have hsucc : ∀ k : Nat, g (k + 1) = f (g k) := by
    intro k
    exact Function.iterate_succ_apply' f k _
  have hchain : ∀ (k i0 : Nat),
      Relation.TransGen (fun a b : String => (a, b) ∈ pairs) ((g (i0 + k + 1)).val)
        ((g i0).val) := by
    intro k
    induction k with
    | zero =>
      intro i0
      rw [show i0 + 0 + 1 = i0 + 1 from rfl, hsucc i0]
      exact Relation.TransGen.single (hf (g i0))
    | succ k ihk =>
      intro i0
      have h1 : Relation.TransGen (fun a b : String => (a, b) ∈ pairs)
          ((g (i0 + k + 2)).val) ((g (i0 + k + 1)).val) := by
        rw [show i0 + k + 2 = (i0 + k + 1) + 1 from rfl, hsucc (i0 + k + 1)]
        exact Relation.TransGen.single (hf _)
      have := Relation.TransGen.trans h1 (ihk i0)
      have harith : i0 + (k + 1) + 1 = i0 + k + 2 := by omega
      rw [harith]
      exact this
  rcases Nat.lt_or_ge i.val j.val with hlt | hge
  · have hj : j.val = i.val + (j.val - i.val - 1) + 1 := by omega
    have hc := hchain (j.val - i.val - 1) i.val
    rw [← hj] at hc
    refine ⟨(g i.val).val, ?_⟩
    have heq2 : (g i.val).val = (g j.val).val := heq
    rw [heq2]
    rw [heq2] at hc
    exact hc
  · have hlt2 : j.val < i.val := by
      rcases Nat.lt_or_ge j.val i.val with h | h
      · exact h
      · exact absurd (Fin.ext (by omega)) hij
    have hi : i.val = j.val + (i.val - j.val - 1) + 1 := by omega
    have hc := hchain (i.val - j.val - 1) j.val
    rw [← hi] at hc
    refine ⟨(g j.val).val, ?_⟩
    have heq2 : (g i.val).val = (g j.val).val := heq
    rw [← heq2]
    rw [← heq2] at hc
    exact hc

theorem indexOf_append_cons_self (l1 l2 : List String) (b : String) (hb : b ∉ l1) :
    (l1 ++ b :: l2).indexOf b = l1.length := by
  induction l1 with
  | nil => simp
  | cons a l1 ih =>
    have hba : b ≠ a := fun h => hb (h ▸ List.mem_cons_self a l1)
    have hb2 : b ∉ l1 := fun h => hb (List.mem_cons_of_mem _ h)
    simp only [List.cons_append, List.indexOf_cons, List.length_cons]
    have : (a == b) = false := by
      simp only [beq_eq_false_iff_ne, ne_eq]
      exact fun h => hba h.symm
    rw [this]
    simp [ih hb2]

theorem pos_lt_of_split (orderF : List String) (hnd : orderF.Nodup) (a b : String)
    (l1 l2 : List String) (hsplit : orderF = l1 ++ b :: l2) (ha : a ∈ l1) :
    orderF.indexOf a < orderF.indexOf b := by
  subst hsplit
  have hbl1 : b ∉ l1 := by
    rw [List.nodup_append] at hnd
    exact fun hc => hnd.2.2 hc (List.mem_cons_self _ _)
  rw [List.indexOf_append_of_mem ha, indexOf_append_cons_self l1 l2 b hbl1]
  exact List.indexOf_lt_length.mpr ha

theorem no_cycle_of_order (pairs : List (String × String)) (orderF : List String)
    (hnd : orderF.Nodup)
    (hord : ∀ p ∈ pairs, ∃ l1 l2, orderF = l1 ++ p.2 :: l2 ∧ p.1 ∈ l1) :
    ¬ ∃ x, Relation.TransGen (fun a b : String => (a, b) ∈ pairs) x x := by
  rintro ⟨x, hx⟩
  have hlt : ∀ a b : String, Relation.TransGen (fun a b : String => (a, b) ∈ pairs) a b →
      orderF.indexOf a < orderF.indexOf b := by
    intro a b h
    induction h with
    | single h1 =>
      rcases hord _ h1 with ⟨l1, l2, hs, hm⟩
      exact pos_lt_of_split orderF hnd _ _ l1 l2 hs hm
    | tail _ h2 ih =>
      rcases hord _ h2 with ⟨l1, l2, hs, hm⟩
      exact lt_trans ih (pos_lt_of_split orderF hnd _ _ l1 l2 hs hm)
  exact absurd (hlt x x hx) (lt_irrefl _)

theorem find?_reverse_self (nodes : List TNode) :
    (nodes.map (·.id)).Nodup →
      ∀ n ∈ nodes, (nodes.reverse).find? (fun m => m.id == n.id) = some n := by
  induction nodes with
  | nil => intro _ n hn; cases hn
  | cons a l ih =>
    intro hnd n hn
    rw [List.map_cons, List.nodup_cons] at hnd
    rw [List.reverse_cons, List.find?_append]
    rcases List.mem_cons.mp hn with heq | hn2
    · subst heq
      have hnone : l.reverse.find? (fun m => m.id == n.id) = none := by
        rw [List.find?_eq_none]
        intro m hm hbm
        have hmid : m.id = n.id := by simpa using hbm
        apply hnd.1
        rw [← hmid]
        exact List.mem_map_of_mem _ (List.mem_reverse.mp hm)
      rw [hnone]
      simp [List.find?]
    · rw [ih hnd.2 n hn2]
      rfl

theorem idToNodeT_self (nodes : List TNode) (hnd : (nodes.map (·.id)).Nodup) :
    ∀ n ∈ nodes, idToNodeT nodes n.id = some n :=
  fun n hn => find?_reverse_self nodes hnd n hn

theorem filterMap_idToNodeT (nodes : List TNode) :
    ∀ l : List TNode, (∀ n ∈ l, idToNodeT nodes n.id = some n) →
      (l.map (·.id)).filterMap (idToNodeT nodes) = l := by
  intro l
  induction l with
  | nil => intro _; rfl
  | cons a l ih =>
    intro hl
    rw [List.map_cons, List.filterMap_cons, hl a (List.mem_cons_self _ _)]
    rw [ih (fun n hn => hl n (List.mem_cons_of_mem _ hn))]

theorem out_map_id (nodes : List TNode) :
    ∀ orderIds : List String,
      (∀ i ∈ orderIds, ∃ n, idToNodeT nodes i = some n ∧ n.id = i) →
      (orderIds.filterMap (idToNodeT nodes)).map (·.id) = orderIds := by
  intro orderIds
  induction orderIds with
  | nil => intro _; rfl
  | cons i l ih =>
    intro h
    rcases h i (List.mem_cons_self _ _) with ⟨n, hsome, hid⟩
    rw [List.filterMap_cons, hsome, List.map_cons, hid,
      ih (fun j hj => h j (List.mem_cons_of_mem _ hj))]

/-- Claim C6 (confirmed): on a node list with distinct ids and a dependency
pair list whose endpoints all exist, `topological_sort` returns a
permutation of the nodes in which every pair's source precedes its
destination when the dependency graph is acyclic, and fails with the
`Cycle` error when the graph has a cycle (a cycle being a non-empty
dependency path from some id back to itself); in particular the two-node
cycle `X→Y, Y→X` is rejected — see the witness. -/
theorem topological_sort_correct (nodes : List TNode) (edges : List TEdge)
    (hnodup : (nodes.map (·.id)).Nodup)
    (hval : ∀ p ∈ buildPairs nodes edges,
        p.1 ∈ nodes.map (·.id) ∧ p.2 ∈ nodes.map (·.id)) :
    ((¬ ∃ x, Relation.TransGen (fun a b : String => (a, b) ∈ buildPairs nodes edges) x x) →
      ∃ out, topological_sort nodes edges = .ok out
        ∧ List.Perm out nodes
        ∧ ∀ p ∈ buildPairs nodes edges,
            ∃ l1 l2, out.map (·.id) = l1 ++ p.2 :: l2 ∧ p.1 ∈ l1)
    ∧ ((∃ x, Relation.TransGen (fun a b : String => (a, b) ∈ buildPairs nodes edges) x x) →
      topological_sort nodes edges = .error .cycle) := by
  have hfind : (buildPairs nodes edges).find?
      (fun p => !((nodes.map (·.id)).contains p.1) || !((nodes.map (·.id)).contains p.2))
      = none := by
    rw [List.find?_eq_none]
    intro p hp
    have h := hval p hp
    have h1 : (nodes.map (·.id)).contains p.1 = true := by simpa using h.1
    have h2 : (nodes.map (·.id)).contains p.2 = true := by simpa using h.2
    simp only [h1, h2, Bool.not_true, Bool.or_self, Bool.false_eq_true, not_false_eq_true]
  have huids : pdedup (nodes.map (·.id)) = nodes.map (·.id) :=
    pdedup_eq_self _ hnodup
  have hvalu : ∀ p ∈ buildPairs nodes edges,
      p.1 ∈ pdedup (nodes.map (·.id)) ∧ p.2 ∈ pdedup (nodes.map (·.id)) := by
    rw [huids]; exact hval
  obtain ⟨indegF, hKF⟩ :=
    kahnRun_drains (buildPairs nodes edges) (pdedup (nodes.map (·.id))) hvalu
      (pdedup (nodes.map (·.id))).length
      (fun x => inDeg (buildPairs nodes edges) x)
      ((pdedup (nodes.map (·.id))).filter (fun x => inDeg (buildPairs nodes edges) x == 0))
      []
      (kahn_initial (buildPairs nodes edges) (pdedup (nodes.map (·.id))) (pdedup_nodup _))
      (by simp)
  set orderF := kahnRun (buildPairs nodes edges) (pdedup (nodes.map (·.id))).length
      (fun x => inDeg (buildPairs nodes edges) x)
      ((pdedup (nodes.map (·.id))).filter (fun x => inDeg (buildPairs nodes edges) x == 0))
      [] with horder
  have hts : topological_sort nodes edges
      = if orderF.length = nodes.length
        then .ok (orderF.filterMap (idToNodeT nodes))
        else .error .cycle := by
    rw [topological_sort, hfind]
  have hOnodup : orderF.Nodup := by
    have := hKF.nodup
    simpa using this
  have hOsub : ∀ x ∈ orderF, x ∈ nodes.map (·.id) := by
    intro x hx
    have := hKF.subs x (by simpa using hx)
    rwa [huids] at this
  have hidslen : (nodes.map (·.id)).length = nodes.length := List.length_map nodes _
  -- success branch construction
  have hsucc : orderF.length = nodes.length →
      List.Perm (orderF.filterMap (idToNodeT nodes)) nodes
      ∧ (∀ p ∈ buildPairs nodes edges,
          ∃ l1 l2, (orderF.filterMap (idToNodeT nodes)).map (·.id) = l1 ++ p.2 :: l2
            ∧ p.1 ∈ l1) := by
    intro hlen
    have hperm : List.Perm orderF (nodes.map (·.id)) :=
      List.Subperm.perm_of_length_le (List.Nodup.subperm hOnodup hOsub) (by omega)
    have hlookup : ∀ i ∈ orderF, ∃ n, idToNodeT nodes i = some n ∧ n.id = i := by
      intro i hi
      rcases List.mem_map.mp (hOsub i hi) with ⟨n, hn, hid⟩
      exact ⟨n, by rw [← hid]; exact idToNodeT_self nodes hnodup n hn, hid⟩
    have hmapid : (orderF.filterMap (idToNodeT nodes)).map (·.id) = orderF :=
      out_map_id nodes orderF hlookup
    constructor
    · have h1 : List.Perm (orderF.filterMap (idToNodeT nodes))
          ((nodes.map (·.id)).filterMap (idToNodeT nodes)) :=
        hperm.filterMap _
      rwa [filterMap_idToNodeT nodes nodes (idToNodeT_self nodes hnodup)] at h1
    · intro p hp
      have hp2 : p.2 ∈ orderF := hperm.mem_iff.mpr (hval p hp).2
      rcases hKF.edgeOrd p hp hp2 with ⟨l1, l2, hs, hm⟩
      exact ⟨l1, l2, by rw [hmapid]; exact hs, hm⟩
  -- failure branch gives a cycle
  have hfail : orderF.length ≠ nodes.length →
      ∃ x, Relation.TransGen (fun a b : String => (a, b) ∈ buildPairs nodes edges) x x := by
    intro hne
    have hlenle : orderF.length ≤ (nodes.map (·.id)).length :=
      nodup_subset_length orderF _ hOnodup hOsub
    have hmiss : ∃ r ∈ nodes.map (·.id), r ∉ orderF := by
      by_contra hc
      push_neg at hc
      have := nodup_subset_length (nodes.map (·.id)) orderF hnodup hc
      omega
    apply exists_cycle_of_pred (buildPairs nodes edges)
      ((nodes.map (·.id)).filter (fun x => decide (x ∉ orderF)))
    · rcases hmiss with ⟨r, hr1, hr2⟩
      exact List.ne_nil_of_mem (List.mem_filter.mpr ⟨hr1, by simp [hr2]⟩)
    · intro r hr
      rcases List.mem_filter.mp hr with ⟨hru, hrn⟩
      have hrno : r ∉ orderF := by simpa using hrn
      have hpu := hKF.pushed r (by rw [huids]; exact hru)
      have hnall : ¬ ∀ p ∈ buildPairs nodes edges, p.2 = r → p.1 ∈ orderF := by
        intro hall
        rcases hpu.mpr hall with h | h
        · exact hrno h
        · cases h
      push_neg at hnall
      rcases hnall with ⟨p, hp, hp2, hp1⟩
      refine ⟨p.1, List.mem_filter.mpr ⟨(hval p hp).1, by simp [hp1]⟩, ?_⟩
      have hpe : (p.1, r) = p := by rw [← hp2]
      rw [hpe]
      exact hp
  constructor
  · intro hacyc
    by_cases hlen : orderF.length = nodes.length
    · rcases hsucc hlen with ⟨hperm, hord⟩
      exact ⟨orderF.filterMap (idToNodeT nodes), by rw [hts, if_pos hlen], hperm, hord⟩
    · exact absurd (hfail hlen) hacyc
  · intro hcyc
    rw [hts]
    by_cases hlen : orderF.length = nodes.length
    · exfalso
      rcases hsucc hlen with ⟨_, hord⟩
      have hmapid : (orderF.filterMap (idToNodeT nodes)).map (·.id) = orderF := by
        apply out_map_id
        intro i hi
        rcases List.mem_map.mp (hOsub i hi) with ⟨n, hn, hid⟩
        exact ⟨n, by rw [← hid]; exact idToNodeT_self nodes hnodup n hn, hid⟩
      apply no_cycle_of_order (buildPairs nodes edges) orderF hOnodup ?_ hcyc
      intro p hp
      rcases hord p hp with ⟨l1, l2, hs, hm⟩
      rw [hmapid] at hs
      exact ⟨l1, l2, hs, hm⟩
    · rw [if_neg hlen]

def c6Nodes : List TNode := [{ id := "X" }, { id := "Y" }]

def c6Edges : List TEdge := [{ src := "X", dst := "Y" }, { src := "Y", dst := "X" }]

theorem topological_sort_correct_witness :
    (c6Nodes.map (·.id)).Nodup
    ∧ (∀ p ∈ buildPairs c6Nodes c6Edges,
        p.1 ∈ c6Nodes.map (·.id) ∧ p.2 ∈ c6Nodes.map (·.id))
    ∧ topological_sort c6Nodes c6Edges = .error .cycle := by
  refine ⟨by decide, by decide, ?_⟩
  apply (topological_sort_correct c6Nodes c6Edges (by decide) (by decide)).2
  refine ⟨"X", ?_⟩
  have h1 : ("X", "Y") ∈ buildPairs c6Nodes c6Edges := by decide
  have h2 : ("Y", "X") ∈ buildPairs c6Nodes c6Edges := by decide
  exact Relation.TransGen.tail (Relation.TransGen.single h1) h2
